import Mathlib

/-!
Verification of the long-document summarization pipeline
(`src/generators/chunker.py`, `src/generators/verifier.py`,
`src/generators/note_generator.py`, `src/phased_pipeline.py`)
against its natural-language specification.

The Python code is shallowly embedded: pure functions become Lean
functions over `String` / `List String`; calls to the external
text-generation and text-judgment services are parameters (oracles);
Python `int` becomes `Int` (or `Nat` where the value is provably
non-negative).  Character positions and lengths count Unicode code
points, exactly as Python's `len`/indexing does.
-/

namespace Summarizer

/-! ### Python primitives used by the code -/

/-- Python whitespace for `str.strip` / `\s` (ASCII range; the source
texts use only ASCII whitespace, Unicode-only spaces are not modelled). -/
def pyIsSpace (c : Char) : Bool :=
  c = ' ' || c = '\t' || c = '\n' || c = '\r' || c = '\x0b' || c = '\x0c'

/-- ASCII decimal digit, Python regex `\d`. -/
def isDigit (c : Char) : Bool := '0' ≤ c && c ≤ '9'

/-- Python `str.rstrip()` (drop trailing whitespace). -/
def pyRstrip (s : String) : String :=
  ⟨(s.data.reverse.dropWhile pyIsSpace).reverse⟩

/-- Python `str.strip()` (drop leading and trailing whitespace). -/
def pyStrip (s : String) : String :=
  ⟨((s.data.dropWhile pyIsSpace).reverse.dropWhile pyIsSpace).reverse⟩

/-- Python `sub in s` (substring containment) on character lists. -/
def containsSub (hay needle : List Char) : Bool :=
  match hay with
  | [] => needle.isEmpty
  | _ :: t => needle.isPrefixOf hay || containsSub t needle

/-- Python `s.count(sub)` for a non-empty `sub`: number of
non-overlapping occurrences, scanning left to right.  The `fuel`
argument only makes the recursion structural (each step consumes at
least one character, so `fuel = hay.length` never runs out). -/
def countSubAux (needle : List Char) : Nat → List Char → Nat
  | 0, _ => 0
  | _, [] => 0
  | fuel + 1, c :: t =>
    if needle ≠ [] ∧ needle.isPrefixOf (c :: t) then
      1 + countSubAux needle fuel ((c :: t).drop needle.length)
    else
      countSubAux needle fuel t

def countSub (hay needle : List Char) : Nat := countSubAux needle hay.length hay

/-- Python `s.find(c)` for a single character: index of the first
occurrence, `-1` if absent. -/
def pyFind (c : Char) (cs : List Char) : Int :=
  match cs with
  | [] => -1
  | x :: t => if x = c then 0 else
      let r := pyFind c t
      if r = -1 then -1 else r + 1

/-- Python `s.rfind(c)` for a single character: index of the last
occurrence, `-1` if absent. -/
def pyRfind (c : Char) (cs : List Char) : Int :=
  match cs with
  | [] => -1
  | x :: t =>
    let r := pyRfind c t
    if r = -1 then (if x = c then 0 else -1) else r + 1

/-! ### `src/generators/chunker.py` — the Chunk Splitter

`chunk_text` first runs `lines = text.split('\n')` and from then
on works only with the line list; we embed it over that line list
(Python's `split('\n')` always returns a non-empty list, and
`'\n'.join` inverts it, so `len(text) = sizeSum lines - 1`).
-/

/-- A produced chunk: `{'index': …, 'text': …, 'start_line': …, 'end_line': …}`. -/
structure Chunk where
  index : Nat
  text : String
  start_line : Nat
  end_line : Nat
deriving DecidableEq, Repr

/-- `sum(len(l) + 1 for l in lines)`; for a line list produced by
`text.split('\n')` this is `len(text) + 1`. -/
def sizeSum (lines : List String) : Nat :=
  (lines.map (fun l => l.length + 1)).sum

/-- Regex `^\[?\d{1,2}:\d{2}(:\d{2})?\]?\s` after the optional leading
bracket and the required hour and minute digits: handles `(:\d{2})?`,
`\]?` and the final mandatory whitespace character. -/
def tsTail (cs : List Char) : Bool :=
  match cs with
  | ':' :: a :: b :: rest =>
    if isDigit a && isDigit b then
      match rest with
      | ']' :: d :: _ => pyIsSpace d
      | d :: _ => pyIsSpace d
      | [] => false
    else false
  | ']' :: d :: _ => pyIsSpace d
  | d :: _ => pyIsSpace d
  | [] => false

/-- Regex `\d{1,2}:\d{2}` (greedy one-or-two digit hour) followed by
`tsTail`; anchored at the head of the list. -/
def tsCore (cs : List Char) : Bool :=
  match cs with
  | d1 :: d2 :: rest =>
    if isDigit d1 then
      if isDigit d2 then
        match rest with
        | ':' :: a :: b :: rest2 => isDigit a && isDigit b && tsTail rest2
        | _ => false
      else if d2 = ':' then
        match rest with
        | a :: b :: rest2 => isDigit a && isDigit b && tsTail rest2
        | _ => false
      else false
    else false
  | _ => false

/-- `re.match(r'^\[?\d{1,2}:\d{2}(:\d{2})?\]?\s', line)`: a subtitle
timestamp segment start. -/
def tsSegmentStart (line : String) : Bool :=
  match line.data with
  | '[' :: rest => tsCore rest
  | cs => tsCore cs

/-- `re.match(r'^\[p\.\d+\]', line)`: a PDF page separator line. -/
def pageSeparator (line : String) : Bool :=
  match line.data with
  | '[' :: 'p' :: '.' :: rest =>
    let ds := rest.takeWhile isDigit
    let rest2 := rest.dropWhile isDigit
    !ds.isEmpty && (match rest2 with | ']' :: _ => true | _ => false)
  | _ => false

/-- Python `s.endswith(suffix)`. -/
def pyEndsWith (s suffix : String) : Bool :=
  suffix.data.isSuffixOf s.data

/-- Python `s.startswith(prefix_str)`. -/
def pyStartsWith (s pre : String) : Bool :=
  pre.data.isPrefixOf s.data

/-- `_is_paragraph_break(line, prev_line)` from `chunker.py`. -/
def is_paragraph_break (line prev_line : String) : Bool :=
  if (pyStrip line).data.isEmpty then true
  else if tsSegmentStart line then true
  else if pyStartsWith line "#" then true
  else if pageSeparator line then true
  else if pyEndsWith (pyRstrip prev_line) "." ∨ pyEndsWith (pyRstrip prev_line) "!"
       ∨ pyEndsWith (pyRstrip prev_line) "?" ∨ pyEndsWith (pyRstrip prev_line) "。"
       ∨ pyEndsWith (pyRstrip prev_line) "다." ∨ pyEndsWith (pyRstrip prev_line) "요."
       ∨ pyEndsWith (pyRstrip prev_line) "죠." then true
  else false

/-- The split decision inside `chunk_text`: with `current_lines`
holding `n` lines and `last_break_idx = lbi`,
`min_break = n // 2`; split at the recorded paragraph boundary only if
`lbi > min_break`, otherwise hard-cut at the current line (`n`). -/
def split_point (n : Nat) (lbi : Int) : Nat :=
  if lbi > (↑(n / 2) : Int) then lbi.toNat else n

/-- The loop state of `chunk_text`. -/
structure ChunkState where
  chunks : List Chunk
  current_lines : List String
  current_size : Nat
  chunk_start : Nat
  last_break_idx : Int
deriving Repr

/-- The paragraph-boundary bookkeeping at the top of the loop body:
`prev_line = current_lines[-1] if current_lines else ''`; if
`current_lines and _is_paragraph_break(line, prev_line)` then
`last_break_idx = len(current_lines)`. -/
def chunkBreakIdx (st : ChunkState) (line : String) : Int :=
  if st.current_lines ≠ [] ∧ is_paragraph_break line (st.current_lines.getLast?.getD "") then
    (st.current_lines.length : Int)
  else st.last_break_idx

/-- The body of `if current_size + line_size > max_size and current_lines:`
— close the current chunk at `split_point`, keep the last
`overlap_lines` lines as overlap, and start the next chunk with
`overlap + remaining_lines` (and `last_break_idx = -1`). -/
def chunkEmit (overlap_lines : Int) (st : ChunkState) (lbi : Int) : ChunkState :=
  let split_at := split_point st.current_lines.length lbi
  let chunk_lines := st.current_lines.take split_at
  let remaining := st.current_lines.drop split_at
  let overlap :=
    if overlap_lines > 0 then
      chunk_lines.drop (chunk_lines.length - overlap_lines.toNat)
    else []
  { chunks := st.chunks ++
      [⟨st.chunks.length, String.intercalate "\n" chunk_lines,
        st.chunk_start, st.chunk_start + chunk_lines.length - 1⟩],
    current_lines := overlap ++ remaining,
    current_size := sizeSum (overlap ++ remaining),
    chunk_start := st.chunk_start + chunk_lines.length - overlap.length,
    last_break_idx := -1 }

/-- The unconditional tail of the loop body:
`current_lines.append(line); current_size += line_size`. -/
def chunkAppend (st : ChunkState) (line : String) : ChunkState :=
  { st with current_lines := st.current_lines ++ [line],
            current_size := st.current_size + (line.length + 1) }

/-- One iteration of the `for i, line in enumerate(lines)` loop of
`chunk_text`. -/
def chunkStep (max_size overlap_lines : Int) (st : ChunkState) (line : String) :
    ChunkState :=
  let lbi := chunkBreakIdx st line
  if ((st.current_size : Int) + (line.length + 1) > max_size) ∧ st.current_lines ≠ [] then
    chunkAppend (chunkEmit overlap_lines st lbi) line
  else
    chunkAppend { st with last_break_idx := lbi } line

/-- `chunk_text(text, max_size, overlap_lines)`, embedded over
`lines = text.split('\n')`.  `len(text)` is `sizeSum lines - 1`, and
the single-chunk branch's `'text': text` is `'\n'.join(lines)`. -/
def chunk_text (lines : List String) (max_size overlap_lines : Int) : List Chunk :=
  if (sizeSum lines : Int) - 1 ≤ max_size then
    [⟨0, String.intercalate "\n" lines, 0, lines.length - 1⟩]
  else
    let st := lines.foldl (chunkStep max_size overlap_lines) ⟨[], [], 0, 0, -1⟩
    if st.current_lines ≠ [] then
      st.chunks ++
        [⟨st.chunks.length, String.intercalate "\n" st.current_lines,
          st.chunk_start, st.chunk_start + st.current_lines.length - 1⟩]
    else st.chunks

/-! ### Slice helper lemmas

`(l.drop a).take (b - a)` is the sub-list of `l` from index `a`
(inclusive) to index `b` (exclusive), i.e. Python's `l[a:b]`. -/

theorem slice_take {α : Type} (l : List α) (s k m : Nat) (hm : m ≤ k - s) :
    ((l.drop s).take (k - s)).take m = (l.drop s).take m := by
  rw [List.take_take, min_eq_left hm]

theorem slice_drop {α : Type} (l : List α) (s k m : Nat) :
    ((l.drop s).take (k - s)).drop m = (l.drop (s + m)).take (k - s - m) := by
  rw [List.drop_take, List.drop_drop]

theorem slice_append {α : Type} (l : List α) (a b c : Nat) (hab : a ≤ b) (hbc : b ≤ c) :
    (l.drop a).take (b - a) ++ (l.drop b).take (c - b) = (l.drop a).take (c - a) := by
  have h1 : l.drop b = (l.drop a).drop (b - a) := by
    rw [List.drop_drop, Nat.add_sub_cancel' hab]
  have h2 : c - a = (b - a) + (c - b) := by omega
  rw [h1, h2, List.take_add]

theorem slice_snoc {α : Type} (l : List α) (s k : Nat) (hs : s ≤ k) (hk : k < l.length) :
    (l.drop s).take (k - s) ++ [l.get ⟨k, hk⟩] = (l.drop s).take (k + 1 - s) := by
  have hlen : k - s < (l.drop s).length := by
    rw [List.length_drop]; omega
  have h1 := List.take_concat_get (l.drop s) (k - s) hlen
  rw [List.concat_eq_append] at h1
  have h2 : (l.drop s)[k - s] = l.get ⟨k, hk⟩ := by
    rw [List.getElem_drop, List.get_eq_getElem]
    simp only [show s + (k - s) = k from by omega]
  rw [h2] at h1
  rw [h1]
  congr 1
  omega

theorem slice_length {α : Type} (l : List α) (s k : Nat) (hk : k ≤ l.length) :
    ((l.drop s).take (k - s)).length = k - s := by
  rw [List.length_take, List.length_drop]; omega

/-! ### Structural invariants of the chunk list (claims C1 and C10) -/

/-- The structural well-formedness of a chunk list produced from the
line list `lines0` with overlap parameter `ov`:
indices are contiguous from 0; each chunk's `text` is the newline-join
of the source lines `start_line..end_line`; the first chunk starts at
line 0; for adjacent chunks the later one starts at or before
`end_line + 1` of the earlier (at or before `end_line` itself when
`ov > 0`, i.e. they share lines), and `end_line` strictly increases. -/
structure ChunkListOK (lines0 : List String) (ov : Int) (cl : List Chunk) : Prop where
  idx : ∀ j (h : j < cl.length), (cl.get ⟨j, h⟩).index = j
  startEnd : ∀ c ∈ cl, c.start_line ≤ c.end_line
  text : ∀ c ∈ cl, c.text =
    String.intercalate "\n" ((lines0.drop c.start_line).take (c.end_line + 1 - c.start_line))
  first : ∀ h : cl ≠ [], (cl.head h).start_line = 0
  adj : List.Chain'
    (fun a b => b.start_line ≤ a.end_line + 1 ∧ a.end_line < b.end_line ∧
      (ov > 0 → b.start_line ≤ a.end_line)) cl

/-- Appending a fresh chunk covering lines `s .. s + m - 1` to a
well-formed chunk list keeps it well-formed. -/
theorem ChunkListOK.append (lines0 : List String) (ov : Int) (cl : List Chunk)
    (hok : ChunkListOK lines0 ov cl) (s m : Nat) (hm : 1 ≤ m)
    (hempty : cl = [] → s = 0)
    (hlink : ∀ h : cl ≠ [], s ≤ (cl.getLast h).end_line + 1 ∧
      (cl.getLast h).end_line + 2 ≤ s + m ∧ (ov > 0 → s ≤ (cl.getLast h).end_line)) :
    ChunkListOK lines0 ov
      (cl ++ [⟨cl.length, String.intercalate "\n" ((lines0.drop s).take m), s, s + m - 1⟩]) := by
  constructor
  · intro j h
    rcases Nat.lt_or_ge j cl.length with hj | hj
    · rw [List.get_eq_getElem, List.getElem_append_left hj]
      exact hok.idx j hj
    · have hj' : j = cl.length := by
        simp only [List.length_append, List.length_singleton] at h; omega
      subst hj'
      rw [List.get_eq_getElem, List.getElem_append_right (le_refl _)]
      simp
  · intro c hc
    rcases List.mem_append.mp hc with hc | hc
    · exact hok.startEnd c hc
    · simp only [List.mem_singleton] at hc; subst hc; dsimp only; omega
  · intro c hc
    rcases List.mem_append.mp hc with hc | hc
    · exact hok.text c hc
    · simp only [List.mem_singleton] at hc; subst hc
      simp only
      congr 2
      omega
  · intro h
    rcases eq_or_ne cl [] with hcl | hcl
    · subst hcl
      simp only [List.nil_append, List.head_cons]
      exact hempty rfl
    · rw [List.head_append]
      simp [hcl, hok.first hcl]
  · rw [List.chain'_append]
    refine ⟨hok.adj, List.chain'_singleton _, ?_⟩
    intro x hx y hy
    rcases eq_or_ne cl [] with hcl | hcl
    · subst hcl; simp at hx
    · rw [List.getLast?_eq_getLast cl hcl, Option.mem_some_iff] at hx
      simp only [List.head?_cons, Option.mem_some_iff] at hy
      subst hx; subst hy
      obtain ⟨h1, h2, h3⟩ := hlink hcl
      dsimp only
      refine ⟨h1, by omega, fun hov => h3 hov⟩

/-- The loop invariant of `chunk_text` after the first `k` lines of
`lines0` have been processed. -/
structure Inv (lines0 : List String) (ov : Int) (st : ChunkState) (k : Nat) : Prop where
  listOK : ChunkListOK lines0 ov st.chunks
  hlen : st.chunk_start + st.current_lines.length = k
  hcur : st.current_lines = (lines0.drop st.chunk_start).take (k - st.chunk_start)
  hk : k ≤ lines0.length
  hne : 0 < k → st.current_lines ≠ []
  hempty : st.chunks = [] → st.chunk_start = 0
  hlink : ∀ h : st.chunks ≠ [], st.chunk_start ≤ (st.chunks.getLast h).end_line + 1
  hlink2 : ∀ h : st.chunks ≠ [],
    (st.chunks.getLast h).end_line + 2 ≤ st.chunk_start + st.current_lines.length
  hlinkov : ov > 0 → ∀ h : st.chunks ≠ [], st.chunk_start ≤ (st.chunks.getLast h).end_line
  hlbi : st.last_break_idx = -1 ∨
    (0 ≤ st.last_break_idx ∧ st.last_break_idx ≤ (st.current_lines.length : Int) ∧
     ∀ h : st.chunks ≠ [],
       ((st.chunks.getLast h).end_line : Int) + 2 - (st.chunk_start : Int) ≤ st.last_break_idx)

/-- The invariant before the final `current_lines.append(line)` of a
loop iteration (the bounds that survive both the emit and the no-emit
path). -/
structure PreInv (lines0 : List String) (ov : Int) (st : ChunkState) (k : Nat) : Prop where
  listOK : ChunkListOK lines0 ov st.chunks
  hlen : st.chunk_start + st.current_lines.length = k
  hcur : st.current_lines = (lines0.drop st.chunk_start).take (k - st.chunk_start)
  hempty : st.chunks = [] → st.chunk_start = 0
  hlink : ∀ h : st.chunks ≠ [], st.chunk_start ≤ (st.chunks.getLast h).end_line + 1
  hlink2 : ∀ h : st.chunks ≠ [],
    (st.chunks.getLast h).end_line + 1 ≤ st.chunk_start + st.current_lines.length
  hlinkov : ov > 0 → ∀ h : st.chunks ≠ [], st.chunk_start ≤ (st.chunks.getLast h).end_line
  hlbi : st.last_break_idx = -1 ∨
    (0 ≤ st.last_break_idx ∧ st.last_break_idx ≤ (st.current_lines.length : Int) + 1 ∧
     ∀ h : st.chunks ≠ [],
       ((st.chunks.getLast h).end_line : Int) + 2 - (st.chunk_start : Int) ≤ st.last_break_idx)

theorem inv_append (lines0 : List String) (ov : Int) (st : ChunkState) (k : Nat)
    (hkn : k < lines0.length) (h : PreInv lines0 ov st k) :
    Inv lines0 ov (chunkAppend st (lines0.get ⟨k, hkn⟩)) (k + 1) := by
  have hsk : st.chunk_start ≤ k := by have := h.hlen; omega
  refine ⟨h.listOK, ?_, ?_, hkn, ?_, h.hempty, h.hlink, ?_, h.hlinkov, ?_⟩
  · simp only [chunkAppend, List.length_append, List.length_singleton]
    have := h.hlen; omega
  · simp only [chunkAppend]
    rw [h.hcur, slice_snoc lines0 st.chunk_start k hsk hkn]
  · intro _
    simp [chunkAppend]
  · intro hc
    simp only [chunkAppend, List.length_append, List.length_singleton]
    have := h.hlink2 hc; omega
  · rcases h.hlbi with hl | ⟨h0, h1, h2⟩
    · exact Or.inl hl
    · refine Or.inr ⟨h0, ?_, h2⟩
      simp only [chunkAppend, List.length_append, List.length_singleton]
      push_cast
      omega

theorem chunkBreakIdx_ok (lines0 : List String) (ov : Int) (st : ChunkState) (k : Nat)
    (h : Inv lines0 ov st k) (line : String) :
    chunkBreakIdx st line = -1 ∨
    (0 ≤ chunkBreakIdx st line ∧ chunkBreakIdx st line ≤ (st.current_lines.length : Int) ∧
     ∀ hc : st.chunks ≠ [],
       ((st.chunks.getLast hc).end_line : Int) + 2 - (st.chunk_start : Int)
         ≤ chunkBreakIdx st line) := by
  unfold chunkBreakIdx
  split_ifs with hb
  · refine Or.inr ⟨by positivity, le_refl _, fun hc => ?_⟩
    have := h.hlink2 hc
    omega
  · exact h.hlbi

theorem keep_pre (lines0 : List String) (ov : Int) (st : ChunkState) (k : Nat)
    (h : Inv lines0 ov st k) (line : String) :
    PreInv lines0 ov { st with last_break_idx := chunkBreakIdx st line } k := by
  refine ⟨h.listOK, h.hlen, h.hcur, h.hempty, h.hlink, ?_, h.hlinkov, ?_⟩
  · intro hc; dsimp only; have := h.hlink2 hc; omega
  · rcases chunkBreakIdx_ok lines0 ov st k h line with hl | ⟨h0, h1, h2⟩
    · exact Or.inl hl
    · refine Or.inr ⟨h0, ?_, h2⟩
      dsimp only
      omega

theorem getLast_snoc {α : Type} (l : List α) (a : α) (h : l ++ [a] ≠ []) :
    (l ++ [a]).getLast h = a := by
  simp [List.getLast_append]

theorem slice_mid {α : Type} (l : List α) (s k A d : Nat) (hd : d ≤ A)
    (hAk : A ≤ k - s) (hsk : s ≤ k) :
    ((l.drop s).take A).drop d ++ ((l.drop s).take (k - s)).drop A
      = (l.drop (s + d)).take (k - (s + d)) := by
  have e1 : (l.drop s).take A = (l.drop s).take ((s + A) - s) := by congr 1; omega
  have e2 : ((l.drop s).take A).drop d = (l.drop (s + d)).take ((s + A) - (s + d)) := by
    rw [e1, slice_drop]; congr 1; omega
  have e3 : ((l.drop s).take (k - s)).drop A = (l.drop (s + A)).take (k - (s + A)) := by
    rw [slice_drop]; congr 1; omega
  rw [e2, e3, slice_append l (s + d) (s + A) k (by omega) (by omega)]

/-- Emitting a chunk of `A` lines, keeping the last `A - d` of them as
overlap, preserves the invariant (before the trailing append). -/
theorem emit_pre_general (lines0 : List String) (ov : Int) (st : ChunkState) (k : Nat)
    (h : Inv lines0 ov st k)
    (A d cs₂ : Nat) (cur₂ : List String) (sz : Nat)
    (hA1 : 1 ≤ A) (hA2 : A ≤ st.current_lines.length) (hdA : d ≤ A)
    (hA3 : ∀ hc : st.chunks ≠ [], (st.chunks.getLast hc).end_line + 2 ≤ st.chunk_start + A)
    (hdov : ov > 0 → d < A)
    (hcs₂ : cs₂ = st.chunk_start + d)
    (hcur₂ : cur₂ = (st.current_lines.take A).drop d ++ st.current_lines.drop A) :
    PreInv lines0 ov
      ⟨st.chunks ++ [⟨st.chunks.length,
          String.intercalate "\n" (st.current_lines.take A),
          st.chunk_start, st.chunk_start + A - 1⟩], cur₂, sz, cs₂, -1⟩ k := by
  have hlen := h.hlen
  have hsk : st.chunk_start ≤ k := by omega
  have hL0 : st.current_lines.length = k - st.chunk_start := by omega
  have hsliceA : st.current_lines.take A = (lines0.drop st.chunk_start).take A := by
    rw [h.hcur]; exact slice_take lines0 st.chunk_start k A (by omega)
  have hcur₂' : cur₂ = (lines0.drop cs₂).take (k - cs₂) := by
    rw [hcur₂, hsliceA, h.hcur, hcs₂]
    exact slice_mid lines0 st.chunk_start k A d hdA (by omega) hsk
  have hcur₂len : cur₂.length = (A - d) + (st.current_lines.length - A) := by
    rw [hcur₂]
    simp only [List.length_append, List.length_drop, List.length_take]
    omega
  constructor
  · -- chunk-list well-formedness
    rw [hsliceA]
    exact ChunkListOK.append lines0 ov st.chunks h.listOK st.chunk_start A hA1 h.hempty
      (fun hc => ⟨h.hlink hc, hA3 hc, fun hov => h.hlinkov hov hc⟩)
  · dsimp only; omega
  · exact hcur₂'
  · intro habs; simp at habs
  · intro _
    dsimp only
    rw [getLast_snoc]
    dsimp only
    omega
  · intro _
    dsimp only
    rw [getLast_snoc]
    dsimp only
    omega
  · intro hov _
    dsimp only
    rw [getLast_snoc]
    dsimp only
    have := hdov hov
    omega
  · exact Or.inl rfl

/-- The split decision picks a cut between 1 and `len(current_lines)`,
and (when a previous chunk exists) strictly beyond the lines already
covered by it. -/
theorem chunkEmit_pre (lines0 : List String) (ov : Int) (st : ChunkState) (k : Nat)
    (h : Inv lines0 ov st k) (hcne : st.current_lines ≠ []) (lbi : Int)
    (hl : lbi = -1 ∨ (0 ≤ lbi ∧ lbi ≤ (st.current_lines.length : Int) ∧
      ∀ hc : st.chunks ≠ [],
        ((st.chunks.getLast hc).end_line : Int) + 2 - (st.chunk_start : Int) ≤ lbi)) :
    PreInv lines0 ov (chunkEmit ov st lbi) k := by
  have hL0pos : 0 < st.current_lines.length := List.length_pos.mpr hcne
  have hA1 : 1 ≤ split_point st.current_lines.length lbi := by
    unfold split_point; split_ifs with hgt
    · omega
    · omega
  have hA2 : split_point st.current_lines.length lbi ≤ st.current_lines.length := by
    unfold split_point; split_ifs with hgt
    · rcases hl with hl | ⟨h0, h1, _⟩
      · omega
      · omega
    · omega
  have hA3 : ∀ hc : st.chunks ≠ [],
      (st.chunks.getLast hc).end_line + 2
        ≤ st.chunk_start + split_point st.current_lines.length lbi := by
    intro hc
    unfold split_point; split_ifs with hgt
    · rcases hl with hl | ⟨h0, h1, h2⟩
      · omega
      · have := h2 hc; omega
    · have := h.hlink2 hc; omega
  have hclen : (st.current_lines.take (split_point st.current_lines.length lbi)).length
      = split_point st.current_lines.length lbi := by
    rw [List.length_take]; omega
  simp only [chunkEmit, hclen]
  by_cases hov : ov > 0
  · simp only [if_pos hov]
    have htoNat : 1 ≤ ov.toNat := by omega
    refine emit_pre_general lines0 ov st k h
      (split_point st.current_lines.length lbi)
      (split_point st.current_lines.length lbi - ov.toNat) _ _ _
      hA1 hA2 (by omega) hA3 (fun _ => by omega) ?_ rfl
    simp only [List.length_drop, hclen]
    omega
  · simp only [if_neg hov]
    refine emit_pre_general lines0 ov st k h
      (split_point st.current_lines.length lbi)
      (split_point st.current_lines.length lbi) _ _ _
      hA1 hA2 (le_refl _) hA3 (fun hc => absurd hc hov) ?_ ?_
    · simp only [List.length_nil]
      omega
    · have hnil : (st.current_lines.take (split_point st.current_lines.length lbi)).drop
          (split_point st.current_lines.length lbi) = [] :=
        List.drop_eq_nil_of_le (le_of_eq hclen)
      rw [hnil]

theorem chunkStep_inv (lines0 : List String) (ms ov : Int) (st : ChunkState) (k : Nat)
    (hkn : k < lines0.length) (h : Inv lines0 ov st k) :
    Inv lines0 ov (chunkStep ms ov st (lines0.get ⟨k, hkn⟩)) (k + 1) := by
  simp only [chunkStep]
  split
  case isTrue hsp =>
    exact inv_append lines0 ov _ k hkn
      (chunkEmit_pre lines0 ov st k h hsp.2 _
        (chunkBreakIdx_ok lines0 ov st k h (lines0.get ⟨k, hkn⟩)))
  case isFalse hsp =>
    exact inv_append lines0 ov _ k hkn (keep_pre lines0 ov st k h _)

theorem foldl_inv (lines0 : List String) (ms ov : Int) :
    ∀ (rest : List String) (k : Nat) (st : ChunkState),
      rest = lines0.drop k → Inv lines0 ov st k →
      Inv lines0 ov (rest.foldl (chunkStep ms ov) st) lines0.length := by
  intro rest
  induction rest with
  | nil =>
    intro k st hr h
    have hk : lines0.length ≤ k := by
      have := congrArg List.length hr
      simp only [List.length_nil, List.length_drop] at this
      omega
    have hkk : k = lines0.length := le_antisymm h.hk hk
    simpa [hkk] using h
  | cons x xs ih =>
    intro k st hr h
    have hkn : k < lines0.length := by
      by_contra hge
      rw [List.drop_eq_nil_of_le (by omega)] at hr
      exact List.cons_ne_nil x xs hr
    have hdc := List.drop_eq_getElem_cons hkn
    rw [hdc] at hr
    have hx : x = lines0.get ⟨k, hkn⟩ := by
      have := (List.cons.injEq _ _ _ _).mp hr
      rw [List.get_eq_getElem]
      exact this.1
    have hxs : xs = lines0.drop (k + 1) := ((List.cons.injEq _ _ _ _).mp hr).2
    rw [List.foldl_cons, hx]
    exact ih (k + 1) _ hxs (chunkStep_inv lines0 ms ov st k hkn h)

/-- The overall well-formedness of `chunk_text`'s output: the list is
non-empty, chunks are structurally valid (`ChunkListOK`), the first
chunk starts at line 0, and the last chunk ends at the last line. -/
structure ChunksGood (lines0 : List String) (ov : Int) (cl : List Chunk) : Prop where
  ok : ChunkListOK lines0 ov cl
  ne : cl ≠ []
  lastEnd : (cl.getLast ne).end_line = lines0.length - 1

/-- Master correctness lemma for `chunk_text` (claims C1 and C10 are
projections of this). -/
theorem chunk_text_good (lines : List String) (hne : lines ≠ []) (ms ov : Int) :
    ChunksGood lines ov (chunk_text lines ms ov) := by
  have hlp : 0 < lines.length := List.length_pos.mpr hne
  unfold chunk_text
  split_ifs with hsmall
  · -- single-chunk branch
    refine ⟨⟨?_, ?_, ?_, ?_, ?_⟩, by simp, ?_⟩
    · intro j h
      simp only [List.length_singleton] at h
      interval_cases j
      simp
    · intro c hc
      simp only [List.mem_singleton] at hc
      subst hc
      dsimp only
      omega
    · intro c hc
      simp only [List.mem_singleton] at hc
      subst hc
      dsimp only
      rw [List.drop_zero]
      congr 1
      have : lines.length - 1 + 1 - 0 = lines.length := by omega
      rw [this, List.take_length]
    · intro _
      simp
    · exact List.chain'_singleton _
    · simp
  · -- loop branch
    have hInv0 : Inv lines ov (⟨[], [], 0, 0, -1⟩ : ChunkState) 0 := by
      refine ⟨⟨?_, ?_, ?_, ?_, ?_⟩, ?_, ?_, ?_, ?_, ?_, ?_, ?_, ?_, ?_⟩
      · intro j h; simp at h
      · intro c hc; simp at hc
      · intro c hc; simp at hc
      · intro hne'; simp at hne'
      · exact List.chain'_nil
      · simp
      · simp
      · omega
      · intro h0; omega
      · intro _; rfl
      · intro hc; simp at hc
      · intro hc; simp at hc
      · intro _ hc; simp at hc
      · exact Or.inl rfl
    have hInv : Inv lines ov (lines.foldl (chunkStep ms ov) ⟨[], [], 0, 0, -1⟩)
        lines.length :=
      foldl_inv lines ms ov lines 0 _ (by simp) hInv0
    set st := lines.foldl (chunkStep ms ov) ⟨[], [], 0, 0, -1⟩ with hst
    have hcne : st.current_lines ≠ [] := hInv.hne hlp
    rw [if_pos hcne]
    have hsk : st.chunk_start + st.current_lines.length = lines.length := hInv.hlen
    have hcur : st.current_lines =
        (lines.drop st.chunk_start).take (lines.length - st.chunk_start) := hInv.hcur
    have hcl1 : 1 ≤ st.current_lines.length := List.length_pos.mpr hcne
    have hcur' : st.current_lines = (lines.drop st.chunk_start).take st.current_lines.length := by
      rw [hcur]
      congr 1
      simp [List.length_take, List.length_drop]
    have hlistOK : ChunkListOK lines ov
        (st.chunks ++ [⟨st.chunks.length, String.intercalate "\n" st.current_lines,
          st.chunk_start, st.chunk_start + st.current_lines.length - 1⟩]) := by
      have happ := ChunkListOK.append lines ov st.chunks hInv.listOK st.chunk_start
        st.current_lines.length hcl1 hInv.hempty
        (fun hc => ⟨hInv.hlink hc, by have := hInv.hlink2 hc; omega,
          fun hov => hInv.hlinkov hov hc⟩)
      rw [← hcur'] at happ
      exact happ
    refine ⟨hlistOK, by simp, ?_⟩
    rw [getLast_snoc]
    dsimp only
    omega

/-! ### The non-overlap coverage sequence (claim C1)

Chunk `j+1` starts with its declared overlap lines — the lines it
shares with chunk `j`, i.e. lines `start_line … prev.end_line`.
Excluding them, chunk `j+1` contributes lines
`prev.end_line + 1 … end_line`.  `nonOverlapSeq` lists, in order, all
lines contributed by the chunks after excluding each chunk's declared
overlap with its predecessor. -/

def seqFrom (prev : Nat) : List Chunk → List Nat
  | [] => []
  | c :: rest => List.range' (prev + 1) (c.end_line - prev) ++ seqFrom c.end_line rest

def nonOverlapSeq : List Chunk → List Nat
  | [] => []
  | c :: rest =>
    List.range' c.start_line (c.end_line + 1 - c.start_line) ++ seqFrom c.end_line rest

theorem seqFrom_eq (ov : Int) :
    ∀ (cl : List Chunk) (prev : Nat),
      List.Chain' (fun a b => b.start_line ≤ a.end_line + 1 ∧ a.end_line < b.end_line ∧
        (ov > 0 → b.start_line ≤ a.end_line)) cl →
      (∀ h : cl ≠ [], prev < (cl.head h).end_line) →
      ∃ last, seqFrom prev cl = List.range' (prev + 1) (last - prev) ∧ prev ≤ last ∧
        (∀ h : cl ≠ [], last = (cl.getLast h).end_line) ∧ (cl = [] → last = prev) := by
  intro cl
  induction cl with
  | nil =>
    intro prev _ _
    exact ⟨prev, by simp [seqFrom], le_refl _, fun h => absurd rfl h, fun _ => rfl⟩
  | cons c rest ih =>
    intro prev hchain hhead
    have hpc : prev < c.end_line := hhead (List.cons_ne_nil c rest)
    have hchain' := (List.chain'_cons'.mp hchain)
    obtain ⟨last, hseq, hle, hlast, hnil⟩ := ih c.end_line hchain'.2 (by
      intro hne
      have := hchain'.1 (rest.head hne) (by simp [List.head?_eq_head hne])
      exact this.2.1)
    refine ⟨last, ?_, by omega, ?_, ?_⟩
    · show List.range' (prev + 1) (c.end_line - prev) ++ seqFrom c.end_line rest
        = List.range' (prev + 1) (last - prev)
      rw [hseq]
      have hr := List.range'_append (prev + 1) (c.end_line - prev) (last - c.end_line) 1
      simp only [one_mul] at hr
      have he : prev + 1 + (c.end_line - prev) = c.end_line + 1 := by omega
      rw [he] at hr
      rw [hr]
      congr 1
      omega
    · intro _
      rcases eq_or_ne rest [] with hrn | hrn
      · subst hrn
        simp only [List.getLast_singleton]
        exact hnil rfl
      · rw [List.getLast_cons hrn]
        exact hlast hrn
    · intro habs
      exact absurd habs (List.cons_ne_nil c rest)

/-- From the structural invariants, the non-overlap coverage sequence
is exactly `0, 1, …, lines0.length - 1`: every source line exactly
once, in order. -/
theorem nonOverlapSeq_eq (lines0 : List String) (ov : Int) (cl : List Chunk)
    (hg : ChunksGood lines0 ov cl) (hlp : 0 < lines0.length) :
    nonOverlapSeq cl = List.range lines0.length := by
  obtain ⟨hok, hne, hlastEnd⟩ := hg
  rcases cl with _ | ⟨c0, rest⟩
  · exact absurd rfl hne
  · have hstart0 : c0.start_line = 0 := hok.first (List.cons_ne_nil c0 rest)
    have hchain' := List.chain'_cons'.mp hok.adj
    obtain ⟨last, hseq, hle, hlast, hnil⟩ := seqFrom_eq ov rest c0.end_line hchain'.2 (by
      intro hne'
      have := hchain'.1 (rest.head hne') (by simp [List.head?_eq_head hne'])
      exact this.2.1)
    have hlastval : last = lines0.length - 1 := by
      rcases eq_or_ne rest [] with hrn | hrn
      · rw [hnil hrn]
        subst hrn
        simpa using hlastEnd
      · rw [hlast hrn]
        rw [List.getLast_cons hrn] at hlastEnd
        exact hlastEnd
    show List.range' c0.start_line (c0.end_line + 1 - c0.start_line) ++ seqFrom c0.end_line rest
      = List.range lines0.length
    rw [hseq, hstart0, hlastval]
    have hr := List.range'_append 0 (c0.end_line + 1) (lines0.length - 1 - c0.end_line) 1
    simp only [one_mul, Nat.zero_add] at hr
    have hc0 : c0.end_line ≤ lines0.length - 1 := by
      rcases eq_or_ne rest [] with hrn | hrn
      · rw [hnil hrn] at hlastval; omega
      · omega
    simp only [Nat.sub_zero]
    rw [List.range_eq_range', hr]
    congr 1
    omega

/-- **C1**: for every input text (given as its line list
`text.split('\n')`, always non-empty) and every `max_size` and
`overlap_lines`, `chunk_text` returns chunks ordered by contiguous
0-based index; when `overlap_lines > 0` every adjacent pair overlaps
(the later chunk's `start_line` is at most the former's `end_line`);
and the chunks' line ranges, after excluding each chunk's declared
overlap with its predecessor (the lines up to the predecessor's
`end_line`), cover exactly the lines `0 … lines.length - 1`, in order,
with no gaps or duplicates. -/
theorem C1_chunk_ranges_cover_source (lines : List String) (hne : lines ≠ [])
    (max_size overlap_lines : Int) :
    (∀ j (h : j < (chunk_text lines max_size overlap_lines).length),
      ((chunk_text lines max_size overlap_lines).get ⟨j, h⟩).index = j) ∧
    (overlap_lines > 0 → List.Chain' (fun a b => b.start_line ≤ a.end_line)
      (chunk_text lines max_size overlap_lines)) ∧
    nonOverlapSeq (chunk_text lines max_size overlap_lines) = List.range lines.length := by
  have hg := chunk_text_good lines hne max_size overlap_lines
  refine ⟨hg.ok.idx, ?_, nonOverlapSeq_eq lines overlap_lines _ hg (List.length_pos.mpr hne)⟩
  intro hov
  exact List.Chain'.imp (fun a b hr => hr.2.2 hov) hg.ok.adj

theorem C1_chunk_ranges_cover_source_witness :
    (["aaaa.", "bbbb", "cc"] : List String) ≠ [] ∧
    nonOverlapSeq (chunk_text ["aaaa.", "bbbb", "cc"] 12 5) = List.range 3 ∧
    List.Chain' (fun a b => b.start_line ≤ a.end_line) (chunk_text ["aaaa.", "bbbb", "cc"] 12 5) := by
  have h := C1_chunk_ranges_cover_source ["aaaa.", "bbbb", "cc"]
    (List.cons_ne_nil _ _) 12 5
  exact ⟨List.cons_ne_nil _ _, h.2.2, h.2.1 (by decide)⟩

/-- **C10**: for every input line list and parameters, `chunk_text`
returns a non-empty list; every chunk's `text` equals the
newline-join of the input's lines from `start_line` through `end_line`
inclusive; the first chunk's `start_line` is 0; the last chunk's
`end_line` is the index of the input's last line. -/
theorem C10_chunk_text_reconstruction (lines : List String) (hne : lines ≠ [])
    (max_size overlap_lines : Int) :
    chunk_text lines max_size overlap_lines ≠ [] ∧
    (∀ c ∈ chunk_text lines max_size overlap_lines, c.text =
      String.intercalate "\n" ((lines.drop c.start_line).take (c.end_line + 1 - c.start_line))) ∧
    (∀ h : chunk_text lines max_size overlap_lines ≠ [],
      ((chunk_text lines max_size overlap_lines).head h).start_line = 0) ∧
    (∀ h : chunk_text lines max_size overlap_lines ≠ [],
      ((chunk_text lines max_size overlap_lines).getLast h).end_line = lines.length - 1) := by
  have hg := chunk_text_good lines hne max_size overlap_lines
  exact ⟨hg.ne, hg.ok.text, fun h => hg.ok.first h, fun h => hg.lastEnd⟩

theorem C10_chunk_text_reconstruction_witness :
    (["aaaa.", "bbbb", "cc"] : List String) ≠ [] ∧
    chunk_text ["aaaa.", "bbbb", "cc"] 12 0 ≠ [] ∧
    (∀ h : chunk_text ["aaaa.", "bbbb", "cc"] 12 0 ≠ [],
      ((chunk_text ["aaaa.", "bbbb", "cc"] 12 0).getLast h).end_line = 2) := by
  have h := C10_chunk_text_reconstruction ["aaaa.", "bbbb", "cc"]
    (List.cons_ne_nil _ _) 12 0
  exact ⟨List.cons_ne_nil _ _, h.1, h.2.2.2⟩

/-! ### Claim C5: the split-point rule

The code (`chunker.py` lines 105-110) splits at the recorded paragraph
boundary only if `last_break_idx > len(current_lines) // 2` — i.e.
only when the boundary falls *strictly after* the 50% fill mark.  The
claim says "at or after", which fails when the boundary sits exactly
at the mark (`last_break_idx = len // 2`). -/

/-- Modelled from the spec: the split rule as the claim states it —
split at the recorded boundary when it falls *at or after* the 50%
fill mark. -/
def split_point_claim (n : Nat) (lbi : Int) : Nat :=
  if lbi ≥ (↑(n / 2) : Int) then lbi.toNat else n

/-- **C5** (counterexample): with 2 current lines and the boundary
recorded at index 1 (exactly the 50% mark, since `2 // 2 = 1`), the
code hard-cuts (split at 2) while the claim predicts a split at the
boundary (1).  End to end: on `"aaaa.\nbbbb\ncc"` with `max_size = 12`
the overflow happens with `current_lines = ["aaaa.", "bbbb"]` and a
boundary recorded at index 1 (`"aaaa."` ends a sentence), yet the
first emitted chunk is the hard-cut `"aaaa.\nbbbb"` ending at line 1,
not `"aaaa."` ending at line 0 as the claim's rule would give. -/
theorem C5_counterexample :
    split_point 2 1 = 2 ∧ split_point_claim 2 1 = 1 ∧
    chunk_text ["aaaa.", "bbbb", "cc"] 12 0 =
      [⟨0, "aaaa.\nbbbb", 0, 1⟩, ⟨1, "cc", 2, 2⟩] := by
  refine ⟨by decide, by decide, by decide⟩

/-- **C5** (amended): during `chunk_text`, whenever adding the next
line would exceed `max_size`, the split point is the most recently
recorded paragraph boundary if that boundary falls *strictly after*
the 50% fill mark (`last_break_idx > len(current_lines) // 2`);
otherwise — boundary at or before the mark, or no boundary — the chunk
is hard-cut at the current line, taking all of `current_lines`.
(`chunkEmit` is exactly the overflow branch of the loop of
`chunk_text`.) -/
theorem C5_split_rule_amended (st : ChunkState) (ov lbi : Int) :
    (lbi > (↑(st.current_lines.length / 2) : Int) →
      (chunkEmit ov st lbi).chunks = st.chunks ++
        [⟨st.chunks.length, String.intercalate "\n" (st.current_lines.take lbi.toNat),
          st.chunk_start, st.chunk_start + (st.current_lines.take lbi.toNat).length - 1⟩]) ∧
    (¬ lbi > (↑(st.current_lines.length / 2) : Int) →
      (chunkEmit ov st lbi).chunks = st.chunks ++
        [⟨st.chunks.length, String.intercalate "\n" st.current_lines,
          st.chunk_start, st.chunk_start + st.current_lines.length - 1⟩]) := by
  constructor
  · intro hgt
    simp only [chunkEmit, split_point, if_pos hgt]
  · intro hle
    simp only [chunkEmit, split_point, if_neg hle]
    rw [List.take_length]

theorem C5_split_rule_amended_witness :
    ((2 : Int) > (↑((["a.", "bb", "cc"] : List String).length / 2) : Int)) ∧
    (chunkEmit 0 ⟨[], ["a.", "bb", "cc"], 9, 0, 2⟩ 2).chunks =
      [⟨0, "a.\nbb", 0, 1⟩] := by
  have h := (C5_split_rule_amended ⟨[], ["a.", "bb", "cc"], 9, 0, 2⟩ 0 2).1 (by decide)
  refine ⟨by decide, ?_⟩
  rw [h]
  decide

/-! ### `src/generators/verifier.py` — the Quality Verifier

Citation patterns (`CITATION_PATTERNS`):
* youtube / video : `\[(\d{1,2}:\d{2}(:\d{2})?)\]`
* pdf             : `\[(p\.?\s*\d+)\]`
* web             : `\[([^\]]+)\]`

The timestamp pattern matches exactly four shapes —
`[d:dd]`, `[dd:dd]`, `[d:dd:dd]`, `[dd:dd:dd]` (lengths 6, 7, 9, 10) —
and these are mutually exclusive on any input (they disagree on the
character at position 2, 5 or 6), so the matcher below tries each
shape in turn. -/

def ytShape6 : List Char → Bool
  | c0 :: c1 :: c2 :: c3 :: c4 :: c5 :: _ =>
    c0 = '[' && isDigit c1 && c2 = ':' && isDigit c3 && isDigit c4 && c5 = ']'
  | _ => false

def ytShape7 : List Char → Bool
  | c0 :: c1 :: c2 :: c3 :: c4 :: c5 :: c6 :: _ =>
    c0 = '[' && isDigit c1 && isDigit c2 && c3 = ':' && isDigit c4 && isDigit c5 && c6 = ']'
  | _ => false

def ytShape9 : List Char → Bool
  | c0 :: c1 :: c2 :: c3 :: c4 :: c5 :: c6 :: c7 :: c8 :: _ =>
    c0 = '[' && isDigit c1 && c2 = ':' && isDigit c3 && isDigit c4 && c5 = ':' &&
      isDigit c6 && isDigit c7 && c8 = ']'
  | _ => false

def ytShape10 : List Char → Bool
  | c0 :: c1 :: c2 :: c3 :: c4 :: c5 :: c6 :: c7 :: c8 :: c9 :: _ =>
    c0 = '[' && isDigit c1 && isDigit c2 && c3 = ':' && isDigit c4 && isDigit c5 &&
      c6 = ':' && isDigit c7 && isDigit c8 && c9 = ']'
  | _ => false

/-- Length of the timestamp-citation match anchored at the head of the
list, if any (regex `\[(\d{1,2}:\d{2}(:\d{2})?)\]`). -/
def ytLen (cs : List Char) : Option Nat :=
  if ytShape10 cs then some 10
  else if ytShape9 cs then some 9
  else if ytShape7 cs then some 7
  else if ytShape6 cs then some 6
  else none

/-- Length of the PDF-page citation match anchored at the head
(regex `\[(p\.?\s*\d+)\]`): after `[p` and the optional `.`, greedy
whitespace, at least one digit, then `]`. -/
def pdfAfterP (cs : List Char) : Option Nat :=
  let sp := cs.takeWhile pyIsSpace
  let rest := cs.dropWhile pyIsSpace
  let ds := rest.takeWhile isDigit
  let rest2 := rest.dropWhile isDigit
  match rest2 with
  | ']' :: _ => if ds.isEmpty then none else some (sp.length + ds.length + 1)
  | _ => none

def pdfLen (cs : List Char) : Option Nat :=
  match cs with
  | '[' :: 'p' :: '.' :: rest => (pdfAfterP rest).map (· + 3)
  | '[' :: 'p' :: rest => (pdfAfterP rest).map (· + 2)
  | _ => none

/-- Length of the generic bracketed-tag match anchored at the head
(regex `\[([^\]]+)\]`): `[`, at least one non-`]` character, `]`. -/
def webLen (cs : List Char) : Option Nat :=
  match cs with
  | '[' :: rest =>
    let body := rest.takeWhile (fun c => c ≠ ']')
    let rest2 := rest.dropWhile (fun c => c ≠ ']')
    match rest2 with
    | ']' :: _ => if body.isEmpty then none else some (body.length + 2)
    | _ => none
  | _ => none

/-- `re.findall(pattern, note)` match count: scan left to right, on a
match jump past it, otherwise advance one character.  All our matchers
return lengths ≥ 1, so `max L 1` is just `L`; it makes each step
consume at least one character, so `fuel = cs.length` of structural
fuel never runs out. -/
def scanCountAux (f : List Char → Option Nat) : Nat → List Char → Nat
  | 0, _ => 0
  | _, [] => 0
  | fuel + 1, c :: rest =>
    match f (c :: rest) with
    | some L => 1 + scanCountAux f fuel ((c :: rest).drop (max L 1))
    | none => scanCountAux f fuel rest

def scanCount (f : List Char → Option Nat) (cs : List Char) : Nat :=
  scanCountAux f cs.length cs

/-- `CITATION_PATTERNS.get(source_type, CITATION_PATTERNS['youtube'])`. -/
def citationMatcher (source_type : String) : List Char → Option Nat :=
  if source_type = "youtube" ∨ source_type = "video" then ytLen
  else if source_type = "pdf" then pdfLen
  else if source_type = "web" then webLen
  else ytLen

/-- `verify_citations(note, source_type)` from `verifier.py`, returning
`(score, issues)`.  The `details` dict (carrying counts for debugging)
is omitted — nothing reads it except logging.

The distribution penalties compare Python ints against
`note_length * 0.3` and `note_length * 0.7`.  Since the doubles
nearest 0.3 and 0.7 have relative error below half an ulp, the
products round to values that compare against integers exactly like
the rationals `3·len/10` and `7·len/10` for every length below 2^53;
the comparisons are embedded as `10·pos > 3·len` and `10·pos < 7·len`. -/
def verify_citations (note : String) (source_type : String) : Nat × List String :=
  let citation_count := scanCount (citationMatcher source_type) note.data
  let note_length := note.length
  let base : Nat × List String :=
    if citation_count = 0 then
      (0, ["인용이 전혀 없습니다. 모든 주요 내용에 출처를 표시해야 합니다."])
    else if citation_count < 3 then
      (40, ["인용이 부족합니다 (" ++ toString citation_count ++ "개). 최소 5개 이상 권장."])
    else if citation_count < 5 then
      (70, ["인용이 다소 부족합니다 (" ++ toString citation_count ++ "개)."])
    else (100, [])
  if citation_count > 0 then
    let first_citation := pyFind '[' note.data
    let last_citation := pyRfind ']' note.data
    let step1 : Nat × List String :=
      if 10 * first_citation > 3 * (note_length : Int) then
        (base.1 - 10, base.2 ++ ["노트 초반부에 인용이 없습니다."])
      else base
    if 10 * last_citation < 7 * (note_length : Int) then
      (step1.1 - 10, step1.2 ++ ["노트 후반부에 인용이 없습니다."])
    else step1
  else base

/-- The rules of `REQUIRED_SECTIONS` consumed by `verify_structure`
(the `min_subsections` / `min_points` entries of the dict are read by
nothing and omitted). `.get` defaults: `min_sections` 0,
`required_keywords` `[]`, `tree_chars` `[]`; an unknown template name
falls back to the `detailed` rules. -/
structure TemplateRules where
  markers : List String
  min_sections : Nat
  required_keywords : List String
  tree_chars : List String

def REQUIRED_SECTIONS (template_name : String) : TemplateRules :=
  if template_name = "detailed" then ⟨["# ", "## "], 3, [], []⟩
  else if template_name = "essence" then ⟨["# ", "## "], 0, ["핵심", "관계", "요약"], []⟩
  else if template_name = "easy" then ⟨["# ", "## "], 0, ["꼭 알아야", "한 줄"], []⟩
  else if template_name = "mindmap" then
    ⟨["# ", "```mermaid", "mindmap"], 0, ["root"], ["├", "└", "│"]⟩
  else ⟨["# ", "## "], 3, [], []⟩

/-- Python `str.lower()` (ASCII lowering; the keywords involved are
Korean or ASCII, which Python's `lower` treats identically). -/
def pyLower (s : String) : String := ⟨s.data.map Char.toLower⟩

/-- `verify_structure(note, template_name)` from `verifier.py`,
returning `(score, issues)`; the `details` dict and the `h3_count`
(stored only in `details`) are omitted.  The running score can go
negative and is floored at 0 only on return (`max(0, score)`), hence
the `Int` accumulator. -/
def verify_structure (note : String) (template_name : String) : Nat × List String :=
  let rules := REQUIRED_SECTIONS template_name
  let s1 : Int × List String := rules.markers.foldl
    (fun acc marker =>
      if containsSub note.data marker.data then acc
      else (acc.1 - 20, acc.2 ++ ["필수 마커 '" ++ pyStrip marker ++ "' 가 없습니다."]))
    (100, [])
  let s2 : Int × List String := rules.required_keywords.foldl
    (fun acc keyword =>
      if containsSub (pyLower note).data (pyLower keyword).data then acc
      else (acc.1 - 15, acc.2 ++ ["필수 섹션 '" ++ keyword ++ "'이(가) 없습니다."]))
    s1
  let h2_count := countSub note.data "\n## ".data
  let s3 : Int × List String :=
    if rules.min_sections > 0 ∧ h2_count < rules.min_sections then
      (s2.1 - 15, s2.2 ++ ["섹션이 부족합니다 (" ++ toString h2_count ++ "개, 최소 "
        ++ toString rules.min_sections ++ "개 필요)"])
    else s2
  let s4 : Int × List String :=
    if template_name = "mindmap" then
      let sa : Int × List String :=
        if containsSub note.data "```mermaid".data then s3
        else (s3.1 - 30, s3.2 ++ ["Mermaid 다이어그램이 없습니다."])
      let has_tree := rules.tree_chars.any (fun c => containsSub note.data c.data)
      if has_tree then sa else (sa.1 - 20, sa.2 ++ ["텍스트 트리 구조가 없습니다."])
    else s3
  (s4.1.toNat, s4.2)

/-! ### `verify_faithfulness` and `verify_note` -/

/-- Python `s.split(sep)` for a non-empty `sep` (every occurrence
splits; fuel is structural, each step consumes ≥ 1 character). -/
def pySplitAux (sep : List Char) : Nat → List Char → List (List Char)
  | 0, _ => [[]]
  | _, [] => [[]]
  | fuel + 1, c :: rest =>
    if sep ≠ [] ∧ sep.isPrefixOf (c :: rest) then
      [] :: pySplitAux sep fuel ((c :: rest).drop sep.length)
    else
      match pySplitAux sep fuel rest with
      | [] => [[c]]
      | x :: xs => (c :: x) :: xs

def pySplitStr (s sep : String) : List String :=
  (pySplitAux sep.data s.data.length s.data).map List.asString

/-- The outcome of the one `client.messages.create` call inside
`verify_faithfulness`, as seen by the surrounding code: importing
`anthropic` may fail, the key may be absent, the call itself may raise, or
it returns a response text.  The JSON parser (`json.loads` restricted
to the object shape the code reads) is an oracle: `none` models
`json.JSONDecodeError`. -/
inductive FaithInput where
  | importError
  | noApiKey
  | apiException (msg : String)
  | response (text : String)

/-- The fields `verify_faithfulness` reads from the parsed JSON
(`result.get('score', 80)` etc.; a missing `score` key is `none`). -/
structure FaithJson where
  score : Option Nat
  hallucinations : List String
  missing_key_points : List String
  suggestions : List String

/-- The code-fence stripping in `verify_faithfulness`:
`split('```json')[1].split('```')[0]` when a ```` ```json ````
fence is present, else `split('```')[1]` (taking `[0]` of a piece that
can contain no further fence is the piece itself), else unchanged. -/
def stripJsonFence (t : String) : String :=
  if containsSub t.data "```json".data then
    ((pySplitStr t "```json").getD 1 "" |> fun u => (pySplitStr u "```").getD 0 "")
  else if containsSub t.data "```".data then
    (pySplitStr t "```").getD 1 ""
  else t

/-- `verify_faithfulness` from `verifier.py`, returning `(score,
issues)` (`details` omitted; the generation call's prompt construction
and source truncation do not affect the returned score).  Returns the
neutral 80 on a missing `anthropic` package, a missing API key, or any
exception from the collaborator call; returns 70 when the response is
not parseable JSON; otherwise the parsed score (80 if the key is
absent). -/
def verify_faithfulness (jsonParse : String → Option FaithJson) :
    FaithInput → Nat × List String
  | .importError => (80, ["anthropic 패키지 없음 - AI 검증 생략"])
  | .noApiKey => (80, ["API 키 없음 - AI 검증 생략"])
  | .apiException msg => (80, ["AI 검증 오류: " ++ msg])
  | .response text =>
    match jsonParse (stripJsonFence (pyStrip text)) with
    | none => (70, ["AI 검증 응답 파싱 실패"])
    | some j =>
      let score := j.score.getD 80
      let issues1 : List String :=
        if j.hallucinations ≠ [] then
          ["원본에 없는 내용 발견: " ++ String.intercalate ", " (j.hallucinations.take 3)]
        else []
      let issues2 : List String :=
        if j.missing_key_points ≠ [] then
          issues1 ++ ["누락된 핵심: " ++ String.intercalate ", " (j.missing_key_points.take 3)]
        else issues1
      (score, issues2)

/-- `VerificationResult` from `verifier.py` (the `details` dict is
omitted — no claim and no control flow reads it). -/
structure VerificationResult where
  passed : Bool
  score : Nat
  issues : List String
  suggestions : List String
deriving DecidableEq, Repr

/-- `verify_note(note, source_text, template_name, api_key,
source_type)` from `verifier.py`.  `faith = some (score, issues,
suggestions)` models `api_key` being present together with what
`verify_faithfulness` returned for `(note, source_text, api_key)`;
`faith = none` models `api_key is None`, where the code uses the
default score 80 with no issues or suggestions.  (`source_text`
reaches only the judgment collaborator and is absorbed into `faith`.)

`int(c*0.25 + s*0.25 + f*0.5)` is exact: each product is a small
dyadic rational in floating point and the truncation of their sum is
`(c + s + 2f) / 4` in integer division. -/
def verify_note (note : String) (template_name : String)
    (faith : Option (Nat × List String × List String)) (source_type : String) :
    VerificationResult :=
  let citation := verify_citations note source_type
  let structure_r := verify_structure note template_name
  let f : Nat × List String × List String := faith.getD (80, [], [])
  let total_score := (citation.1 + structure_r.1 + 2 * f.1) / 4
  { passed := decide (total_score ≥ 80),
    score := total_score,
    issues := citation.2 ++ structure_r.2 ++ f.2.1,
    suggestions := f.2.2 }

/-! ### Claim C3: the citation sub-score formula -/

/-- The start position of the first `re.findall` match and the end
position (index of the final character) of the last match, scanning
exactly like `scanCount`. -/
def scanMatchesAux (f : List Char → Option Nat) : Nat → Nat → List Char → List (Nat × Nat)
  | 0, _, _ => []
  | _, _, [] => []
  | fuel + 1, i, c :: rest =>
    match f (c :: rest) with
    | some L => (i, L) :: scanMatchesAux f fuel (i + max L 1) ((c :: rest).drop (max L 1))
    | none => scanMatchesAux f fuel (i + 1) rest

def scanMatches (f : List Char → Option Nat) (cs : List Char) : List (Nat × Nat) :=
  scanMatchesAux f cs.length 0 cs

/-- Modelled from the spec: the citation sub-score as claim C3 states
it, with the distribution penalties keyed to the position of the first
citation *marker* and the end of the last citation *marker* (not the
first `'['` / last `']'` characters that the code actually uses). -/
def verify_citations_claim (note : String) (source_type : String) : Nat :=
  let ms := scanMatches (citationMatcher source_type) note.data
  let count := ms.length
  let len := note.length
  let base : Nat := if count = 0 then 0 else if count < 3 then 40
    else if count < 5 then 70 else 100
  if count > 0 then
    let first : Nat := ((ms.head?).map (·.1)).getD 0
    let lastEnd : Nat := ((ms.getLast?).map (fun p => p.1 + p.2 - 1)).getD 0
    let s1 : Nat := if 10 * (first : Int) > 3 * (len : Int) then base - 10 else base
    if 10 * (lastEnd : Int) < 7 * (len : Int) then s1 - 10 else s1
  else base

/-- **C3** (counterexample): the code keys the distribution penalties
to the first `'['` and last `']'` characters of the note, not to the
citation markers.  In
`"[x]aaaaaaaaaa[1:23][2:34][3:45][4:56][5:06]"` (43 chars, 5 markers)
the first *marker* starts at index 13, after the 30% mark
(`130 > 129`), so the claim's formula yields 90; but the first `'['`
is at index 0, so `verify_citations` applies no penalty and returns
100. -/
theorem C3_counterexample :
    (verify_citations "[x]aaaaaaaaaa[1:23][2:34][3:45][4:56][5:06]" "youtube").1 = 100 ∧
    verify_citations_claim "[x]aaaaaaaaaa[1:23][2:34][3:45][4:56][5:06]" "youtube" = 90 ∧
    (100 : Nat) ≠ 90 := by
  refine ⟨by decide, by decide, by decide⟩

/-- Closed form of the citation sub-score as computed by the code:
base by marker count, then the two bracket-character distribution
penalties (only when at least one marker exists), floored at 0. -/
theorem citation_score_closed_form (note : String) (source_type : String) :
    (verify_citations note source_type).1 =
      (let c := scanCount (citationMatcher source_type) note.data
       let base : Int := if c = 0 then 0 else if c < 3 then 40 else if c < 5 then 70 else 100
       let p1 : Int := if c > 0 ∧ 10 * pyFind '[' note.data > 3 * (note.length : Int)
         then 10 else 0
       let p2 : Int := if c > 0 ∧ 10 * pyRfind ']' note.data < 7 * (note.length : Int)
         then 10 else 0
       (base - p1 - p2).toNat) := by
  unfold verify_citations
  dsimp only
  by_cases h0 : scanCount (citationMatcher source_type) note.data = 0
  · simp only [h0, if_pos rfl, gt_iff_lt, lt_irrefl, if_false]
    norm_num
  · have h0' : scanCount (citationMatcher source_type) note.data > 0 := Nat.pos_of_ne_zero h0
    simp only [if_neg h0, if_pos h0', gt_iff_lt, h0']
    simp only [true_and]
    by_cases h3 : scanCount (citationMatcher source_type) note.data < 3 <;>
      by_cases h5 : scanCount (citationMatcher source_type) note.data < 5 <;>
        by_cases hp1 : 10 * pyFind '[' note.data > 3 * (note.length : Int) <;>
          by_cases hp2 : 10 * pyRfind ']' note.data < 7 * (note.length : Int) <;>
            simp only [h3, h5, hp1, hp2, if_true, if_false, if_pos, if_neg,
              not_false_iff, gt_iff_lt] <;> simp_all

/-- **C3** (amended): for every note and source type the citation
sub-score equals: 0 with 0 markers, 40 with fewer than 3, 70 with
fewer than 5, 100 with at least 5; then minus 10 if the first `'['`
*character* appears after the 30%-length position, minus 10 if the
last `']'` *character* appears before the 70%-length position (both
penalties only when at least one marker exists), floored at 0. -/
theorem C3_citation_score_formula (note : String) (source_type : String) :
    (verify_citations note source_type).1 =
      (let c := scanCount (citationMatcher source_type) note.data
       let base : Int := if c = 0 then 0 else if c < 3 then 40 else if c < 5 then 70 else 100
       let p1 : Int := if c > 0 ∧ 10 * pyFind '[' note.data > 3 * (note.length : Int)
         then 10 else 0
       let p2 : Int := if c > 0 ∧ 10 * pyRfind ']' note.data < 7 * (note.length : Int)
         then 10 else 0
       (base - p1 - p2).toNat) :=
  citation_score_closed_form note source_type

/-- **C4**: for every note, template, source type and judgment
outcome, `verify_note` computes `total` as the weighted sum of the
three sub-scores with weights citation 25%, structure 25%,
faithfulness 50%, truncated to an integer, and sets `passed` to true
iff `total ≥ 80` (the default acceptance threshold). -/
theorem C4_verify_note_weighted_total (note template_name source_type : String)
    (faith : Option (Nat × List String × List String)) :
    (verify_note note template_name faith source_type).score =
      (25 * (verify_citations note source_type).1
        + 25 * (verify_structure note template_name).1
        + 50 * (faith.getD (80, [], [])).1) / 100 ∧
    ((verify_note note template_name faith source_type).passed = true ↔
      (verify_note note template_name faith source_type).score ≥ 80) := by
  constructor
  · simp only [verify_note]
    have hmul : 25 * (verify_citations note source_type).1
        + 25 * (verify_structure note template_name).1
        + 50 * (faith.getD (80, [], [])).1
        = 25 * ((verify_citations note source_type).1
            + (verify_structure note template_name).1
            + 2 * (faith.getD (80, [], [])).1) := by ring
    rw [hmul, show (100 : Nat) = 25 * 4 from rfl,
      Nat.mul_div_mul_left _ 4 (by norm_num : (0 : Nat) < 25)]
  · simp only [verify_note, decide_eq_true_eq]

/-! ### Claim C8: faithfulness fallbacks -/

/-- **C8** (counterexample): the claim says every unavailable-or-
malformed case substitutes the neutral default 80, but an unparseable
response (`json.JSONDecodeError`) yields 70, not 80: with a judgment
response `"oops"` (no JSON), `verify_faithfulness` returns 70. -/
theorem C8_counterexample :
    (verify_faithfulness (fun _ => none) (.response "oops")).1 = 70 ∧ (70 : Nat) ≠ 80 := by
  refine ⟨by decide, by decide⟩

/-- **C8** (amended): faithfulness verification never fails: when the
judgment collaborator is unavailable (missing `anthropic` dependency,
missing credential, or any exception from the call) it substitutes the
neutral default score of 80; when the collaborator responds but the
response is unparseable it substitutes the reduced score 70 — in all
cases verification proceeds non-fatally. -/
theorem C8_faithfulness_fallbacks (jsonParse : String → Option FaithJson)
    (msg text : String) :
    (verify_faithfulness jsonParse .importError).1 = 80 ∧
    (verify_faithfulness jsonParse .noApiKey).1 = 80 ∧
    (verify_faithfulness jsonParse (.apiException msg)).1 = 80 ∧
    (jsonParse (stripJsonFence (pyStrip text)) = none →
      (verify_faithfulness jsonParse (.response text)).1 = 70) := by
  refine ⟨rfl, rfl, rfl, fun hparse => ?_⟩
  simp only [verify_faithfulness, hparse]

theorem C8_faithfulness_fallbacks_witness :
    ((fun _ => none : String → Option FaithJson) (stripJsonFence (pyStrip "oops")) = none) ∧
    (verify_faithfulness (fun _ => none) (.response "oops")).1 = 70 ∧
    (verify_faithfulness (fun _ => none) .noApiKey).1 = 80 := by
  have h := C8_faithfulness_fallbacks (fun _ => none) "err" "oops"
  exact ⟨rfl, h.2.2.2 rfl, h.2.1⟩

/-! ### `src/generators/note_generator.py` — the Revision Orchestrator

`generate_with_verification(prompt, source_text, template_name,
api_key, source_type, max_attempts, min_score, verbose)`.

The generation collaborator (`generate_with_api`) and the verifier
(`verify_note`, which itself consults the judgment collaborator) are
modelled as call-indexed oracles `gen` and `ver` — the index is the
attempt number, capturing that two calls with the same prompt may
return different text.  `source_text`, `template_name`, `api_key` and
`source_type` are absorbed into the oracles; `min_score` is accepted
by the Python function but never read (the pass decision is
`verify_note`'s fixed threshold); `verbose` only prints.  The returned
triple carries the result plus the number of generation calls and of
verification calls made. -/

/-- `format_feedback(result)` from `verifier.py`. -/
def format_feedback (result : VerificationResult) : String :=
  "\n\n## 이전 생성 피드백\n" ++ ("이전 시도 점수: " ++ toString result.score ++ "/100\n")
  ++ (if result.issues ≠ [] then
        "\n### 발견된 문제점:\n" ++ String.join (result.issues.map (fun i => "- " ++ i ++ "\n"))
      else "")
  ++ (if result.suggestions ≠ [] then
        "\n### 개선 제안:\n" ++ String.join (result.suggestions.map (fun s => "- " ++ s ++ "\n"))
      else "")
  ++ "\n위 문제점을 해결하여 다시 생성해주세요.\n"

/-- The `for attempt in range(1, max_attempts + 1)` loop.  `r` is the
number of attempts remaining, `attempt` the 1-based attempt number,
`current` the current prompt, `best` the best-so-far pair
(`best_note, best_result`), `gc`/`vc` the generation/verification
call counters.  A new candidate replaces `best` only when its score is
strictly greater (`result.score > best_result.score`), and a passing
result returns immediately with the current candidate.  On failure
the prompt for the next attempt is the original prompt plus the
feedback block (`prompt + feedback`), rebuilt from the failing result
(only while attempts remain: `if attempt < max_attempts`). -/
def gwvAux (gen : Nat → String → String) (ver : Nat → String → VerificationResult)
    (origPrompt : String) :
    Nat → Nat → String → Option (String × VerificationResult) → Nat → Nat →
      Option (String × VerificationResult) × Nat × Nat
  | 0, _, _, best, gc, vc => (best, gc, vc)
  | r + 1, attempt, current, best, gc, vc =>
    let note := gen attempt current
    let result := ver attempt note
    let best' := match best with
      | none => some (note, result)
      | some (bn, br) => if result.score > br.score then some (note, result) else some (bn, br)
    if result.passed then (some (note, result), gc + 1, vc + 1)
    else
      let current' := if r > 0 then origPrompt ++ format_feedback result else current
      gwvAux gen ver origPrompt r (attempt + 1) current' best' (gc + 1) (vc + 1)

/-- `generate_with_verification` with its collaborators abstracted.
The first component is `(best_note, best_result)` — `none` exactly
when the loop body never ran (`max_attempts = 0`), in which case the
Python function refers to `best_result.score` with `best_result =
None` and cannot return a candidate. -/
def generate_with_verification (gen : Nat → String → String)
    (ver : Nat → String → VerificationResult) (prompt : String) (max_attempts : Nat) :
    Option (String × VerificationResult) × Nat × Nat :=
  gwvAux gen ver prompt max_attempts 1 prompt none 0 0

/-- The prompt the loop uses at attempt `k` (the original prompt at
attempt 1; thereafter the original prompt plus the feedback of the
previous attempt's verification). -/
def attemptPrompt (gen : Nat → String → String) (ver : Nat → String → VerificationResult)
    (orig : String) : Nat → String
  | 0 => orig
  | 1 => orig
  | k + 2 =>
    orig ++ format_feedback
      (ver (k + 1) (gen (k + 1) (attemptPrompt gen ver orig (k + 1))))

def attemptNote (gen : Nat → String → String) (ver : Nat → String → VerificationResult)
    (orig : String) (k : Nat) : String :=
  gen k (attemptPrompt gen ver orig k)

def attemptResult (gen : Nat → String → String) (ver : Nat → String → VerificationResult)
    (orig : String) (k : Nat) : VerificationResult :=
  ver k (attemptNote gen ver orig k)

/-- Index of the first passing attempt among `a, a+1, …, a+r-1`. -/
def firstPass (gen : Nat → String → String) (ver : Nat → String → VerificationResult)
    (orig : String) (a : Nat) : Nat → Option Nat
  | 0 => none
  | r + 1 =>
    if (attemptResult gen ver orig a).passed then some a
    else firstPass gen ver orig (a + 1) r

/-- The strict-improvement best-so-far accumulator over attempts
`a, …, a+r-1`. -/
def bestUpd (best : Option (String × VerificationResult)) (x : String × VerificationResult) :
    Option (String × VerificationResult) :=
  match best with
  | none => some x
  | some b => if x.2.score > b.2.score then some x else some b

def bestFold (gen : Nat → String → String) (ver : Nat → String → VerificationResult)
    (orig : String) (best : Option (String × VerificationResult)) (a : Nat) :
    Nat → Option (String × VerificationResult)
  | 0 => best
  | r + 1 =>
    bestFold gen ver orig (bestUpd best (attemptNote gen ver orig a, attemptResult gen ver orig a))
      (a + 1) r

theorem attemptPrompt_succ (gen : Nat → String → String)
    (ver : Nat → String → VerificationResult) (orig : String) (a : Nat) (ha : 1 ≤ a) :
    attemptPrompt gen ver orig (a + 1)
      = orig ++ format_feedback (attemptResult gen ver orig a) := by
  obtain ⟨k, rfl⟩ : ∃ k, a = k + 1 := ⟨a - 1, by omega⟩
  rfl

theorem firstPass_bounds (gen : Nat → String → String)
    (ver : Nat → String → VerificationResult) (orig : String) :
    ∀ (r a k : Nat), firstPass gen ver orig a r = some k → a ≤ k ∧ k < a + r := by
  intro r
  induction r with
  | zero => intro a k h; simp [firstPass] at h
  | succ r ih =>
    intro a k h
    rw [firstPass] at h
    split_ifs at h with hp
    · obtain rfl : a = k := by injection h
      omega
    · have := ih (a + 1) k h
      omega

/-- Full characterization of the loop: it stops at the first passing
attempt, returning that candidate and having made one generation and
one verification call per attempt so far; with no pass it runs all
remaining attempts and returns the best-so-far accumulator. -/
theorem gwvAux_spec (gen : Nat → String → String)
    (ver : Nat → String → VerificationResult) (orig : String) :
    ∀ (r a : Nat) (best : Option (String × VerificationResult)) (gc vc : Nat), 1 ≤ a →
      gwvAux gen ver orig r a (attemptPrompt gen ver orig a) best gc vc =
        match firstPass gen ver orig a r with
        | some k => (some (attemptNote gen ver orig k, attemptResult gen ver orig k),
            gc + (k - a + 1), vc + (k - a + 1))
        | none => (bestFold gen ver orig best a r, gc + r, vc + r) := by
  intro r
  induction r with
  | zero =>
    intro a best gc vc _
    simp [gwvAux, firstPass, bestFold]
  | succ r ih =>
    intro a best gc vc ha
    simp only [gwvAux]
    by_cases hp : (attemptResult gen ver orig a).passed
    · simp only [attemptResult, attemptNote] at hp
      simp only [hp, if_true, firstPass, attemptResult, attemptNote, if_pos hp]
      have he : a - a + 1 = 1 := by omega
      rw [he]
    · simp only [attemptResult, attemptNote] at hp
      simp only [hp, if_false, Bool.false_eq_true, firstPass, attemptResult, attemptNote,
        if_neg hp]
      rcases Nat.eq_zero_or_pos r with hr | hr
      · subst hr
        simp only [gt_iff_lt, lt_irrefl, if_false, gwvAux, firstPass, bestFold, bestUpd,
          attemptNote, attemptResult]
        rcases best with _ | ⟨bn, br⟩ <;> simp
      · have hcur : (if r > 0 then orig ++ format_feedback
            (ver a (gen a (attemptPrompt gen ver orig a))) else attemptPrompt gen ver orig a)
            = attemptPrompt gen ver orig (a + 1) := by
          rw [if_pos hr, attemptPrompt_succ gen ver orig a ha]
          rfl
        rw [hcur, ih (a + 1) _ (gc + 1) (vc + 1) (by omega)]
        rcases hfp : firstPass gen ver orig (a + 1) r with _ | k
        · simp only [bestFold, bestUpd, attemptNote, attemptResult, Prod.mk.injEq]
          refine ⟨?_, by omega, by omega⟩
          rcases best with _ | ⟨bn, br⟩ <;> simp
        · have hk := firstPass_bounds gen ver orig r (a + 1) k hfp
          simp only [Prod.mk.injEq]
          refine ⟨rfl, by omega, by omega⟩

theorem bestFold_some_spec (gen : Nat → String → String)
    (ver : Nat → String → VerificationResult) (orig : String) :
    ∀ (r a : Nat) (b : String × VerificationResult),
      ∃ c, bestFold gen ver orig (some b) a r = some c ∧
        (c = b ∨ ∃ k, a ≤ k ∧ k < a + r ∧
          c = (attemptNote gen ver orig k, attemptResult gen ver orig k)) ∧
        b.2.score ≤ c.2.score ∧
        ∀ j, a ≤ j → j < a + r → (attemptResult gen ver orig j).score ≤ c.2.score := by
  intro r
  induction r with
  | zero =>
    intro a b
    exact ⟨b, rfl, Or.inl rfl, le_refl _, fun j h1 h2 => by omega⟩
  | succ r ih =>
    intro a b
    rw [bestFold]
    by_cases hgt : b.2.score < (attemptResult gen ver orig a).score
    · have hupd : bestUpd (some b) (attemptNote gen ver orig a, attemptResult gen ver orig a)
          = some (attemptNote gen ver orig a, attemptResult gen ver orig a) := by
        simp [bestUpd, hgt]
      rw [hupd]
      obtain ⟨c, hc1, hc2, hc3, hc4⟩ :=
        ih (a + 1) (attemptNote gen ver orig a, attemptResult gen ver orig a)
      have hc3' : (attemptResult gen ver orig a).score ≤ c.2.score := hc3
      refine ⟨c, hc1, ?_, by omega, ?_⟩
      · rcases hc2 with hc2 | ⟨k, hk1, hk2, hk3⟩
        · exact Or.inr ⟨a, le_refl _, by omega, hc2⟩
        · exact Or.inr ⟨k, by omega, by omega, hk3⟩
      · intro j h1 h2
        rcases eq_or_lt_of_le h1 with rfl | hlt
        · exact hc3'
        · exact hc4 j (by omega) (by omega)
    · have hupd : bestUpd (some b) (attemptNote gen ver orig a, attemptResult gen ver orig a)
          = some b := by
        simp [bestUpd, hgt]
      rw [hupd]
      obtain ⟨c, hc1, hc2, hc3, hc4⟩ := ih (a + 1) b
      refine ⟨c, hc1, ?_, hc3, ?_⟩
      · rcases hc2 with hc2 | ⟨k, hk1, hk2, hk3⟩
        · exact Or.inl hc2
        · exact Or.inr ⟨k, by omega, by omega, hk3⟩
      · intro j h1 h2
        rcases eq_or_lt_of_le h1 with rfl | hlt
        · omega
        · exact hc4 j (by omega) (by omega)

theorem firstPass_eq_some (gen : Nat → String → String)
    (ver : Nat → String → VerificationResult) (orig : String) :
    ∀ (r a k : Nat), a ≤ k → k < a + r → (attemptResult gen ver orig k).passed →
      (∀ j, a ≤ j → j < k → ¬ (attemptResult gen ver orig j).passed) →
      firstPass gen ver orig a r = some k := by
  intro r
  induction r with
  | zero => intro a k h1 h2; omega
  | succ r ih =>
    intro a k h1 h2 hp hfail
    rw [firstPass]
    rcases eq_or_lt_of_le h1 with rfl | hlt
    · rw [if_pos hp]
    · rw [if_neg (hfail a (le_refl _) hlt)]
      exact ih (a + 1) k (by omega) (by omega) hp (fun j hj1 hj2 => hfail j (by omega) hj2)

theorem firstPass_some_passed (gen : Nat → String → String)
    (ver : Nat → String → VerificationResult) (orig : String) :
    ∀ (r a k : Nat), firstPass gen ver orig a r = some k →
      (attemptResult gen ver orig k).passed := by
  intro r
  induction r with
  | zero => intro a k h; simp [firstPass] at h
  | succ r ih =>
    intro a k h
    rw [firstPass] at h
    split_ifs at h with hp
    · obtain rfl : a = k := by injection h
      exact hp
    · exact ih (a + 1) k h

theorem firstPass_none (gen : Nat → String → String)
    (ver : Nat → String → VerificationResult) (orig : String) :
    ∀ (r a : Nat), firstPass gen ver orig a r = none →
      ∀ j, a ≤ j → j < a + r → ¬ (attemptResult gen ver orig j).passed := by
  intro r
  induction r with
  | zero => intro a _ j h1 h2; omega
  | succ r ih =>
    intro a h j h1 h2
    rw [firstPass] at h
    split_ifs at h with hp
    rcases eq_or_lt_of_le h1 with rfl | hlt
    · exact hp
    · exact ih (a + 1) h j (by omega) (by omega)

/-- **C2** (counterexample): with `max_attempts = 0` the loop body
never runs, `best_note`/`best_result` stay `None`, no candidate is
returned (the Python function then even raises looking up
`best_result.score` when verbose) — contradicting the claim that for
every `N`, including `N = 0`, a non-null best-so-far candidate is
returned. -/
theorem C2_counterexample :
    (generate_with_verification (fun _ _ => "") (fun _ _ => ⟨false, 0, [], []⟩) "p" 0).1
      = none := by
  rfl

/-- **C2** (amended, for `max_attempts = N ≥ 1`; for `N = 0` no
candidate is produced — see the counterexample):
`generate_with_verification` makes at most `N` generation calls and at
most `N` verification calls; when attempt `k` is the first whose
verification passes it returns that candidate immediately, having made
exactly `k` calls of each kind; when no attempt passes (and `N ≥ 1`)
it returns a non-null best-so-far candidate together with that
candidate's verification result — a candidate whose score is maximal
among all `N` attempts — and never fails on quality grounds. -/
theorem C2_generate_with_verification_bounded (gen : Nat → String → String)
    (ver : Nat → String → VerificationResult) (prompt : String) (N : Nat) :
    ((generate_with_verification gen ver prompt N).2.1 ≤ N ∧
      (generate_with_verification gen ver prompt N).2.2 ≤ N) ∧
    (∀ k, 1 ≤ k → k ≤ N → (attemptResult gen ver prompt k).passed →
      (∀ j, 1 ≤ j → j < k → ¬ (attemptResult gen ver prompt j).passed) →
      generate_with_verification gen ver prompt N =
        (some (attemptNote gen ver prompt k, attemptResult gen ver prompt k), k, k)) ∧
    ((∀ j, 1 ≤ j → j ≤ N → ¬ (attemptResult gen ver prompt j).passed) → 1 ≤ N →
      ∃ k, 1 ≤ k ∧ k ≤ N ∧
        (generate_with_verification gen ver prompt N).1 =
          some (attemptNote gen ver prompt k, attemptResult gen ver prompt k) ∧
        ∀ j, 1 ≤ j → j ≤ N →
          (attemptResult gen ver prompt j).score ≤ (attemptResult gen ver prompt k).score) ∧
    (1 ≤ N → (generate_with_verification gen ver prompt N).1.isSome) := by
  have hspec := gwvAux_spec gen ver prompt N 1 none 0 0 (le_refl 1)
  have hgwv : generate_with_verification gen ver prompt N =
      match firstPass gen ver prompt 1 N with
      | some k => (some (attemptNote gen ver prompt k, attemptResult gen ver prompt k),
          0 + (k - 1 + 1), 0 + (k - 1 + 1))
      | none => (bestFold gen ver prompt none 1 N, 0 + N, 0 + N) := hspec
  refine ⟨?_, ?_, ?_, ?_⟩
  · rw [hgwv]
    rcases hfp : firstPass gen ver prompt 1 N with _ | k
    · simp
    · have := firstPass_bounds gen ver prompt N 1 k hfp
      simp only
      omega
  · intro k hk1 hkN hp hfail
    have hfp : firstPass gen ver prompt 1 N = some k :=
      firstPass_eq_some gen ver prompt N 1 k hk1 (by omega) hp hfail
    rw [hgwv, hfp]
    simp only [Prod.mk.injEq]
    exact ⟨by simp, by omega, by omega⟩
  · intro hfail hN
    have hfp : firstPass gen ver prompt 1 N = none := by
      rcases h : firstPass gen ver prompt 1 N with _ | k
      · rfl
      · have hb := firstPass_bounds gen ver prompt N 1 k h
        have hpk := firstPass_some_passed gen ver prompt N 1 k h
        exact absurd hpk (hfail k (by omega) (by omega))
    obtain ⟨N', rfl⟩ : ∃ N', N = N' + 1 := ⟨N - 1, by omega⟩
    rw [hgwv, hfp]
    have hbf : bestFold gen ver prompt none 1 (N' + 1) =
        bestFold gen ver prompt
          (some (attemptNote gen ver prompt 1, attemptResult gen ver prompt 1)) 2 N' := by
      rw [bestFold]
      rfl
    obtain ⟨c, hc1, hc2, hc3, hc4⟩ := bestFold_some_spec gen ver prompt N' 2
      (attemptNote gen ver prompt 1, attemptResult gen ver prompt 1)
    rcases hc2 with hc2 | ⟨k, hk1, hk2, hk3⟩
    · refine ⟨1, le_refl _, by omega, by rw [hbf, hc1, hc2], ?_⟩
      intro j h1 h2
      rcases eq_or_lt_of_le h1 with rfl | hlt
      · subst hc2; simp
      · subst hc2
        exact hc4 j (by omega) (by omega)
    · refine ⟨k, by omega, by omega, by rw [hbf, hc1, hk3], ?_⟩
      intro j h1 h2
      rcases eq_or_lt_of_le h1 with rfl | hlt
      · rw [hk3] at hc3
        simpa using hc3
      · rw [hk3] at hc4
        simpa using hc4 j (by omega) (by omega)
  · intro hN
    rw [hgwv]
    rcases hfp : firstPass gen ver prompt 1 N with _ | k
    · obtain ⟨N', rfl⟩ : ∃ N', N = N' + 1 := ⟨N - 1, by omega⟩
      have hbf : bestFold gen ver prompt none 1 (N' + 1) =
          bestFold gen ver prompt
            (some (attemptNote gen ver prompt 1, attemptResult gen ver prompt 1)) 2 N' := by
        rw [bestFold]
        rfl
      obtain ⟨c, hc1, _, _, _⟩ := bestFold_some_spec gen ver prompt N' 2
        (attemptNote gen ver prompt 1, attemptResult gen ver prompt 1)
      simp [hbf, hc1]
    · simp

theorem C2_generate_with_verification_bounded_witness :
    (∀ j, 1 ≤ j → j < 2 →
      ¬ (attemptResult (fun k _ => "note" ++ toString k)
          (fun k _ => ⟨decide (k = 2), 10 * k, [], []⟩) "p" j).passed) ∧
    (attemptResult (fun k _ => "note" ++ toString k)
      (fun k _ => ⟨decide (k = 2), 10 * k, [], []⟩) "p" 2).passed ∧
    generate_with_verification (fun k _ => "note" ++ toString k)
        (fun k _ => ⟨decide (k = 2), 10 * k, [], []⟩) "p" 3 =
      (some (attemptNote (fun k _ => "note" ++ toString k)
          (fun k _ => ⟨decide (k = 2), 10 * k, [], []⟩) "p" 2,
        attemptResult (fun k _ => "note" ++ toString k)
          (fun k _ => ⟨decide (k = 2), 10 * k, [], []⟩) "p" 2), 2, 2) := by
  have h := (C2_generate_with_verification_bounded (fun k _ => "note" ++ toString k)
    (fun k _ => ⟨decide (k = 2), 10 * k, [], []⟩) "p" 3).2.1
  refine ⟨?_, by decide, ?_⟩
  · intro j h1 h2
    interval_cases j
    decide
  · exact h 2 (by decide) (by decide) (by decide)
      (fun j h1 h2 => by interval_cases j; decide)

/-! ### `src/phased_pipeline.py` — Phase 2 chunk loop (claim C6)

The `for i, chunk in enumerate(chunks)` loop of `phase2_chunk_notes`
(lines 227-253): for each chunk, skip it if its part file already
exists and `--force` is not set; otherwise call
`generate_structured_chunk_note` and write `notes_partN.md`.
`gen i text` models that call for chunk index `i` (the only exception
it handles internally is a missing `anthropic` package, falling back
to the prompt; any error from the collaborator call propagates).
There is no `try`/`except` around the call: `Except.error` aborts the
whole loop, leaving later chunks unprocessed and recording no warning.
The result is the list of `(part_number, content)` files written by
this run plus the escaping exception, if any. -/
def phase2_chunk_loop (gen : Nat → String → Except String String)
    (alreadyExists : Nat → Bool) (force : Bool) :
    Nat → List String → List (Nat × String) × Option String
  | _, [] => ([], none)
  | i, chunk :: rest =>
    if alreadyExists i ∧ ¬ force then
      phase2_chunk_loop gen alreadyExists force (i + 1) rest
    else
      match gen i chunk with
      | .error e => ([], some e)
      | .ok note =>
        let out := phase2_chunk_loop gen alreadyExists force (i + 1) rest
        ((i + 1, note) :: out.1, out.2)

/-- **C6** (counterexample): a generation failure on chunk 0 aborts
the phase — chunk 1, whose generation would succeed, is never
attempted, nothing is written, and the error escapes instead of being
recorded as a warning. -/
theorem C6_counterexample :
    phase2_chunk_loop (fun i _ => if i = 0 then .error "API error" else .ok "note")
      (fun _ => false) false 0 ["chunk0", "chunk1"] = ([], some "API error") := by
  rfl

/-- **C6** (amended): in the chunk-synthesis phase a failure while
synthesizing a single chunk is **not** recovered: the exception
propagates out of the loop (no warning is recorded), the remaining
chunks are not attempted, and only the non-skipped chunks strictly
before the failing one have their part files written.  (Parts already
on disk from a previous run are skipped and survive, which is the
resume mechanism.) -/
theorem C6_chunk_failure_aborts_phase (gen : Nat → String → Except String String)
    (alreadyExists : Nat → Bool) (force : Bool) :
    ∀ (pre : List String) (c : String) (post : List String) (i : Nat) (e : String),
      (∀ k (hk : k < pre.length), ¬ (alreadyExists (i + k) ∧ ¬ force) →
        ∃ s, gen (i + k) (pre.get ⟨k, hk⟩) = .ok s) →
      ¬ (alreadyExists (i + pre.length) ∧ ¬ force) →
      gen (i + pre.length) c = .error e →
      (phase2_chunk_loop gen alreadyExists force i (pre ++ c :: post)).2 = some e ∧
      ∀ pn note, (pn, note) ∈ (phase2_chunk_loop gen alreadyExists force i
        (pre ++ c :: post)).1 → pn ≤ i + pre.length := by
  intro pre
  induction pre with
  | nil =>
    intro c post i e _ hskip herr
    rw [List.length_nil, Nat.add_zero] at hskip herr
    simp only [List.nil_append, phase2_chunk_loop]
    rw [if_neg hskip, herr]
    exact ⟨rfl, fun pn note h => by simp at h⟩
  | cons p pre ih =>
    intro c post i e hok hskip herr
    simp only [List.cons_append, phase2_chunk_loop]
    by_cases hsk : alreadyExists i ∧ ¬ force
    · rw [if_pos hsk]
      have := ih c post (i + 1) e
        (fun k hk hns => by
          have := hok (k + 1) (by simp; omega) (by
            rw [show i + (k + 1) = i + 1 + k from by omega]
            exact hns)
          rw [show i + 1 + k = i + (k + 1) from by omega]
          simpa using this)
        (by rw [show i + 1 + pre.length = i + (p :: pre).length from by simp; omega]
            exact hskip)
        (by rw [show i + 1 + pre.length = i + (p :: pre).length from by simp; omega]
            exact herr)
      refine ⟨this.1, fun pn note h => ?_⟩
      have := this.2 pn note h
      simp only [List.length_cons]
      omega
    · rw [if_neg hsk]
      obtain ⟨s, hs⟩ := hok 0 (by simp) (by simpa using hsk)
      simp only [List.get_eq_getElem] at hs
      simp only [List.getElem_cons_zero] at hs
      rw [Nat.add_zero] at hs
      rw [hs]
      have := ih c post (i + 1) e
        (fun k hk hns => by
          have := hok (k + 1) (by simp; omega) (by
            rw [show i + (k + 1) = i + 1 + k from by omega]
            exact hns)
          rw [show i + 1 + k = i + (k + 1) from by omega]
          simpa using this)
        (by rw [show i + 1 + pre.length = i + (p :: pre).length from by simp; omega]
            exact hskip)
        (by rw [show i + 1 + pre.length = i + (p :: pre).length from by simp; omega]
            exact herr)
      refine ⟨this.1, fun pn note h => ?_⟩
      simp only [List.mem_cons] at h
      rcases h with h | h
      · have : pn = i + 1 := by
          injection h with h1 _
        simp only [List.length_cons]
        omega
      · have := this.2 pn note h
        simp only [List.length_cons]
        omega

theorem C6_chunk_failure_aborts_phase_witness :
    ((fun i (_ : String) => if i = 0 then Except.ok "n0" else Except.error "boom")
        1 "c1" = Except.error "boom") ∧
    phase2_chunk_loop (fun i _ => if i = 0 then .ok "n0" else .error "boom")
      (fun _ => false) false 0 ["c0", "c1", "c2"] = ([(1, "n0")], some "boom") := by
  have h := C6_chunk_failure_aborts_phase
    (fun i _ => if i = 0 then .ok "n0" else .error "boom") (fun _ => false) false
    ["c0"] "c1" ["c2"] 0 "boom"
    (fun k hk hns => by
      have hk0 : k = 0 := by simpa using hk
      subst hk0
      exact ⟨"n0", rfl⟩)
    (by simp) rfl
  exact ⟨rfl, by have hx := h.1; rfl⟩

/-! ### `src/phased_pipeline.py` — hierarchical merge (claim C7) -/

/-- The metadata fields `merge_hierarchical` reads from `meta`. -/
structure MergeMeta where
  title : String
  source_type : String
  source : String
  video_id : String

/-- The `video_embed` block built when `meta` has a non-empty
`video_id`. -/
def videoEmbedBlock (video_id : String) : String :=
  if video_id ≠ "" then
    "## YouTube 임베딩\n노트 제목 아래에 다음 코드를 포함하세요:\n```html\n<div style=\"position: relative; padding-bottom: 56.25%; height: 0; overflow: hidden; max-width: 100%; margin: 20px 0;\">\n  <iframe style=\"position: absolute; top: 0; left: 0; width: 100%; height: 100%;\"\n    src=\"https://www.youtube.com/embed/"
    ++ video_id ++
    "\" frameborder=\"0\"\n    allow=\"accelerometer; autoplay; clipboard-write; encrypted-media; gyroscope; picture-in-picture\"\n    allowfullscreen></iframe>\n</div>\n```"
  else ""

/-- `THEMATIC_MERGE_PROMPT.format(...)` from `phased_pipeline.py`. -/
def THEMATIC_MERGE_PROMPT (title source_type source video_embed combined_parts : String) :
    String :=
  "다음은 하나의 콘텐츠를 청크별로 분석한 구조화된 노트들입니다.\n이것들을 읽고 하나의 완성된 통합 노트로 재구성해주세요.\n\nCRITICAL: 아래 파트 노트만 사용하세요. 원본 transcript는 참조하지 않습니다.\n\n## 메타 정보\n- 제목: "
  ++ title ++ "\n- 유형: " ++ source_type ++ "\n- 출처: " ++ source ++
  "\n\n## 출력 구조 (반드시 이 형식을 따르세요):\n\n### 1. Executive Summary\n전체 콘텐츠의 핵심을 500단어 내외로 요약.\n무엇을, 왜, 어떻게 다루는지 명확히.\n\n### 2. 주제별 상세 노트 (Thematic Notes)\n시간순이 아닌 주제별로 재구성하여 정리.\n- 각 주제에 관련 타임스탬프 [HH:MM:SS] 또는 [p.N] 인용 유지\n- 중복 내용 제거\n- 논리적 흐름으로 재배치\n\n### 3. Key Takeaways\n핵심 교훈 5-10개를 bullet point로 정리.\n\n### 4. Timeline\n전체 콘텐츠의 주요 포인트를 시간순으로 정리.\n- [HH:MM:SS] 내용 요약\n\n### 5. 한국어 요약 (Korean Summary)\nExecutive Summary와 Key Takeaways만 한국어로 번역.\n\n## 추가 규칙\n- Obsidian 호환 마크다운 형식 ([[links]], #tags)\n- 소스에 없는 내용 추가 금지\n- 모든 인용에 타임스탬프 유지\n\n"
  ++ video_embed ++ "\n\n## 파트별 노트\n" ++ combined_parts ++
  "\n\n위 파트 노트들을 통합하여 완성된 노트를 생성해주세요.\n"

/-- `parts[i:i+3]` grouping of the stage-1 loop
(`for i in range(0, len(parts), 3)`), written with structural
patterns: groups of 3 taken left to right, only the last group
smaller. -/
def gatherGroups : List String → List (List String)
  | [] => []
  | [a] => [[a]]
  | [a, b] => [[a, b]]
  | a :: b :: c :: rest => [a, b, c] :: gatherGroups rest

/-- The stage-1 prompt for the group starting at 0-based part index
`i` (`group_range = f"Part {i+1}-{min(i+group_size, len(parts))}"`). -/
def midPrompt (total i : Nat) (group : List String) : String :=
  "다음 파트 노트들을 하나로 통합하세요 (Part " ++ toString (i + 1) ++ "-"
  ++ toString (min (i + 3) total) ++ "/" ++ toString total ++
  "개).\n\n규칙:\n- 중복 제거, 타임스탬프 유지\n- 핵심 주제, 인용, 액션 아이템 구조 유지\n- 소스에 없는 내용 추가 금지\n\n"
  ++ String.intercalate "\n\n---\n\n" group ++ "\n"

/-- Stage 1 of `merge_hierarchical`: one generation call per group, in
order; returns the intermediate summaries and the prompts sent (the
call log). -/
def hierStage1 (gen : String → String) (total : Nat) :
    Nat → List (List String) → List String × List String
  | _, [] => ([], [])
  | i, g :: gs =>
    let prompt := midPrompt total i g
    let out := hierStage1 gen total (i + 3) gs
    (gen prompt :: out.1, prompt :: out.2)

/-- `merge_hierarchical(parts, meta, api_key)` with the generation
collaborator abstracted as `gen` (the `anthropic` import is assumed
available — its absence falls back to `merge_simple`, out of scope of
C7).  Returns `(final_text, stage-1 prompt log, final prompt)`: the
stage-1 groups each get exactly one call, then exactly one final call
is issued on the thematic-merge prompt over the joined intermediate
summaries. -/
def merge_hierarchical (gen : String → String) (parts : List String) (meta : MergeMeta) :
    String × List String × String :=
  let groups := gatherGroups parts
  let stage1 := hierStage1 gen parts.length 0 groups
  let combined_mid := String.intercalate "\n\n---\n\n" stage1.1
  let final_prompt := THEMATIC_MERGE_PROMPT meta.title meta.source_type meta.source
    (videoEmbedBlock meta.video_id) combined_mid
  (gen final_prompt, stage1.2, final_prompt)

theorem gatherGroups_join (parts : List String) : (gatherGroups parts).flatten = parts := by
  induction parts using gatherGroups.induct with
  | case1 => rfl
  | case2 a => rfl
  | case3 a b => rfl
  | case4 a b c rest ih => simp [gatherGroups, ih]

theorem gatherGroups_length (parts : List String) :
    (gatherGroups parts).length = (parts.length + 2) / 3 := by
  induction parts using gatherGroups.induct with
  | case1 => rfl
  | case2 a => simp [gatherGroups]
  | case3 a b => simp [gatherGroups]
  | case4 a b c rest ih => simp [gatherGroups, ih]; omega

theorem gatherGroups_sizes (parts : List String) :
    (∀ g ∈ gatherGroups parts, 1 ≤ g.length ∧ g.length ≤ 3) ∧
    (∀ j (h : j + 1 < (gatherGroups parts).length),
      ((gatherGroups parts).get ⟨j, by omega⟩).length = 3) := by
  induction parts using gatherGroups.induct with
  | case1 => exact ⟨by simp [gatherGroups], by simp [gatherGroups]⟩
  | case2 a => refine ⟨?_, ?_⟩ <;> simp [gatherGroups]
  | case3 a b => refine ⟨?_, ?_⟩ <;> simp [gatherGroups]
  | case4 a b c rest ih =>
    refine ⟨?_, ?_⟩
    · intro g hg
      simp only [gatherGroups, List.mem_cons] at hg
      rcases hg with rfl | hg
      · simp
      · exact ih.1 g hg
    · intro j h
      match j with
      | 0 => simp [gatherGroups]
      | j + 1 =>
        simp only [gatherGroups, List.length_cons] at h ⊢
        rw [List.get_cons_succ]
        exact ih.2 j (by omega)

theorem hierStage1_log_length (gen : String → String) (total : Nat) :
    ∀ (groups : List (List String)) (i : Nat),
      (hierStage1 gen total i groups).2.length = groups.length := by
  intro groups
  induction groups with
  | nil => intro i; rfl
  | cons g gs ih => intro i; simp [hierStage1, ih]

/-- **C7**: for every list of `n` partial notes, hierarchical merge
groups them left to right into groups of size 3 (only the last group
may be smaller, and it is non-empty), issues exactly one intermediate
merge call per group — `⌈n/3⌉ = (n+2)/3` calls in total, recorded in
the prompt log — followed by exactly one final merge call over the
joined intermediate summaries (the returned final text is the
generator's answer to the single final prompt). -/
theorem C7_merge_hierarchical_grouping (gen : String → String) (parts : List String)
    (meta : MergeMeta) :
    ((merge_hierarchical gen parts meta).2.1).length = (parts.length + 2) / 3 ∧
    (gatherGroups parts).flatten = parts ∧
    (∀ g ∈ gatherGroups parts, 1 ≤ g.length ∧ g.length ≤ 3) ∧
    (∀ j (h : j + 1 < (gatherGroups parts).length),
      ((gatherGroups parts).get ⟨j, by omega⟩).length = 3) ∧
    (merge_hierarchical gen parts meta).1 = gen (merge_hierarchical gen parts meta).2.2 := by
  refine ⟨?_, gatherGroups_join parts, (gatherGroups_sizes parts).1,
    (gatherGroups_sizes parts).2, rfl⟩
  show (hierStage1 gen parts.length 0 (gatherGroups parts)).2.length = _
  rw [hierStage1_log_length, gatherGroups_length]

/-- **C7** witness: with 7 partial notes there are exactly 3
intermediate calls, on groups of sizes 3, 3 and 1, and one final
call. -/
theorem C7_merge_hierarchical_grouping_witness :
    ((merge_hierarchical id ["p1", "p2", "p3", "p4", "p5", "p6", "p7"]
      ⟨"t", "youtube", "src", ""⟩).2.1).length = 3 ∧
    gatherGroups ["p1", "p2", "p3", "p4", "p5", "p6", "p7"] =
      [["p1", "p2", "p3"], ["p4", "p5", "p6"], ["p7"]] ∧
    ((gatherGroups ["p1", "p2", "p3", "p4", "p5", "p6", "p7"]).get
      ⟨0, by decide⟩).length = 3 := by
  have h := C7_merge_hierarchical_grouping id ["p1", "p2", "p3", "p4", "p5", "p6", "p7"]
    ⟨"t", "youtube", "src", ""⟩
  exact ⟨h.1, by decide, h.2.2.2.1 0 (by decide)⟩

/-! ### Claim C9: monotonicity of the citation sub-score

The timestamp pattern is self-delimiting and contains `'['` only as
its first character, so `re.findall`'s non-overlapping matches are
exactly the positions at which a match is anchored.  The development
below characterizes the four shapes, shows the scanner count equals
the anchored-position count, and proves that inserting one well-formed
marker changes the count by 0 or 1 and can only relax the distribution
penalties. -/

theorem isDigit_ne_lbracket {c : Char} (h : isDigit c = true) : c ≠ '[' := by
  intro hc
  subst hc
  simp [isDigit] at h

theorem ytShape6_spec {cs : List Char} (h : ytShape6 cs = true) :
    ∃ d1 d3 d4 rest, cs = '[' :: d1 :: ':' :: d3 :: d4 :: ']' :: rest ∧
      isDigit d1 ∧ isDigit d3 ∧ isDigit d4 := by
  match cs, h with
  | c0 :: c1 :: c2 :: c3 :: c4 :: c5 :: rest, h =>
    simp only [ytShape6, Bool.and_eq_true, decide_eq_true_eq] at h
    obtain ⟨⟨⟨⟨⟨h0, h1⟩, h2⟩, h3⟩, h4⟩, h5⟩ := h
    exact ⟨c1, c3, c4, rest, by rw [h0, h2, h5], h1, h3, h4⟩

theorem ytShape7_spec {cs : List Char} (h : ytShape7 cs = true) :
    ∃ d1 d2 d4 d5 rest, cs = '[' :: d1 :: d2 :: ':' :: d4 :: d5 :: ']' :: rest ∧
      isDigit d1 ∧ isDigit d2 ∧ isDigit d4 ∧ isDigit d5 := by
  match cs, h with
  | c0 :: c1 :: c2 :: c3 :: c4 :: c5 :: c6 :: rest, h =>
    simp only [ytShape7, Bool.and_eq_true, decide_eq_true_eq] at h
    obtain ⟨⟨⟨⟨⟨⟨h0, h1⟩, h2⟩, h3⟩, h4⟩, h5⟩, h6⟩ := h
    exact ⟨c1, c2, c4, c5, rest, by rw [h0, h3, h6], h1, h2, h4, h5⟩

theorem ytShape9_spec {cs : List Char} (h : ytShape9 cs = true) :
    ∃ d1 d3 d4 d6 d7 rest,
      cs = '[' :: d1 :: ':' :: d3 :: d4 :: ':' :: d6 :: d7 :: ']' :: rest ∧
      isDigit d1 ∧ isDigit d3 ∧ isDigit d4 ∧ isDigit d6 ∧ isDigit d7 := by
  match cs, h with
  | c0 :: c1 :: c2 :: c3 :: c4 :: c5 :: c6 :: c7 :: c8 :: rest, h =>
    simp only [ytShape9, Bool.and_eq_true, decide_eq_true_eq] at h
    obtain ⟨⟨⟨⟨⟨⟨⟨⟨h0, h1⟩, h2⟩, h3⟩, h4⟩, h5⟩, h6⟩, h7⟩, h8⟩ := h
    exact ⟨c1, c3, c4, c6, c7, rest, by rw [h0, h2, h5, h8], h1, h3, h4, h6, h7⟩

theorem ytShape10_spec {cs : List Char} (h : ytShape10 cs = true) :
    ∃ d1 d2 d4 d5 d7 d8 rest,
      cs = '[' :: d1 :: d2 :: ':' :: d4 :: d5 :: ':' :: d7 :: d8 :: ']' :: rest ∧
      isDigit d1 ∧ isDigit d2 ∧ isDigit d4 ∧ isDigit d5 ∧ isDigit d7 ∧ isDigit d8 := by
  match cs, h with
  | c0 :: c1 :: c2 :: c3 :: c4 :: c5 :: c6 :: c7 :: c8 :: c9 :: rest, h =>
    simp only [ytShape10, Bool.and_eq_true, decide_eq_true_eq] at h
    obtain ⟨⟨⟨⟨⟨⟨⟨⟨⟨h0, h1⟩, h2⟩, h3⟩, h4⟩, h5⟩, h6⟩, h7⟩, h8⟩, h9⟩ := h
    exact ⟨c1, c2, c4, c5, c7, c8, rest, by rw [h0, h3, h6, h9], h1, h2, h4, h5, h7, h8⟩

/-- If the head is not `'['`, no shape matches. -/
theorem ytLen_none_of_head {c : Char} (t : List Char) (hc : c ≠ '[') :
    ytLen (c :: t) = none := by
  unfold ytLen
  have h10 : ytShape10 (c :: t) = false := by
    by_contra h
    obtain ⟨d1, d2, d4, d5, d7, d8, rest, heq, _⟩ :=
      ytShape10_spec (by simpa using h)
    rw [List.cons.injEq] at heq
    exact hc heq.1
  have h9 : ytShape9 (c :: t) = false := by
    by_contra h
    obtain ⟨d1, d3, d4, d6, d7, rest, heq, _⟩ := ytShape9_spec (by simpa using h)
    rw [List.cons.injEq] at heq
    exact hc heq.1
  have h7 : ytShape7 (c :: t) = false := by
    by_contra h
    obtain ⟨d1, d2, d4, d5, rest, heq, _⟩ := ytShape7_spec (by simpa using h)
    rw [List.cons.injEq] at heq
    exact hc heq.1
  have h6 : ytShape6 (c :: t) = false := by
    by_contra h
    obtain ⟨d1, d3, d4, rest, heq, _⟩ := ytShape6_spec (by simpa using h)
    rw [List.cons.injEq] at heq
    exact hc heq.1
  rw [h10, h9, h7, h6]
  rfl

theorem ytLen_nil : ytLen [] = none := by rfl

/-- The possible match lengths, and that a match fits inside the
input. -/
theorem ytLen_some_spec {cs : List Char} {L : Nat} (h : ytLen cs = some L) :
    (L = 6 ∨ L = 7 ∨ L = 9 ∨ L = 10) ∧ L ≤ cs.length ∧ 6 ≤ L := by
  unfold ytLen at h
  split_ifs at h with h10 h9 h7 h6
  · obtain ⟨_, _, _, _, _, _, rest, heq, _⟩ := ytShape10_spec h10
    obtain rfl : L = 10 := by injection h with h'; omega
    subst heq
    simp
  · obtain ⟨_, _, _, _, _, rest, heq, _⟩ := ytShape9_spec h9
    obtain rfl : L = 9 := by injection h with h'; omega
    subst heq
    simp
  · obtain ⟨_, _, _, _, rest, heq, _⟩ := ytShape7_spec h7
    obtain rfl : L = 7 := by injection h with h'; omega
    subst heq
    simp
  · obtain ⟨_, _, _, rest, heq, _⟩ := ytShape6_spec h6
    obtain rfl : L = 6 := by injection h with h'; omega
    subst heq
    simp

theorem isDigit_colon : isDigit ':' = false := by decide

theorem isDigit_rbracket : isDigit ']' = false := by decide

/-- Interior characters of a timestamp match (positions `1..L-1`) are
digits, `':'` or `']'` — never `'['`. -/
theorem ytLen_interior_char {cs : List Char} {L : Nat} (h : ytLen cs = some L) :
    ∀ j, 1 ≤ j → j < L → ∃ c t, cs.drop j = c :: t ∧ c ≠ '[' := by
  unfold ytLen at h
  split_ifs at h with h10 h9 h7 h6
  · obtain ⟨d1, d2, d4, d5, d7, d8, rest, heq, hd1, hd2, hd4, hd5, hd7, hd8⟩ :=
      ytShape10_spec h10
    obtain rfl : L = 10 := by injection h with h'; omega
    subst heq
    intro j hj1 hj2
    interval_cases j
    · exact ⟨_, _, rfl, isDigit_ne_lbracket hd1⟩
    · exact ⟨_, _, rfl, isDigit_ne_lbracket hd2⟩
    · exact ⟨_, _, rfl, by decide⟩
    · exact ⟨_, _, rfl, isDigit_ne_lbracket hd4⟩
    · exact ⟨_, _, rfl, isDigit_ne_lbracket hd5⟩
    · exact ⟨_, _, rfl, by decide⟩
    · exact ⟨_, _, rfl, isDigit_ne_lbracket hd7⟩
    · exact ⟨_, _, rfl, isDigit_ne_lbracket hd8⟩
    · exact ⟨_, _, rfl, by decide⟩
  · obtain ⟨d1, d3, d4, d6, d7, rest, heq, hd1, hd3, hd4, hd6, hd7⟩ := ytShape9_spec h9
    obtain rfl : L = 9 := by injection h with h'; omega
    subst heq
    intro j hj1 hj2
    interval_cases j
    · exact ⟨_, _, rfl, isDigit_ne_lbracket hd1⟩
    · exact ⟨_, _, rfl, by decide⟩
    · exact ⟨_, _, rfl, isDigit_ne_lbracket hd3⟩
    · exact ⟨_, _, rfl, isDigit_ne_lbracket hd4⟩
    · exact ⟨_, _, rfl, by decide⟩
    · exact ⟨_, _, rfl, isDigit_ne_lbracket hd6⟩
    · exact ⟨_, _, rfl, isDigit_ne_lbracket hd7⟩
    · exact ⟨_, _, rfl, by decide⟩
  · obtain ⟨d1, d2, d4, d5, rest, heq, hd1, hd2, hd4, hd5⟩ := ytShape7_spec h7
    obtain rfl : L = 7 := by injection h with h'; omega
    subst heq
    intro j hj1 hj2
    interval_cases j
    · exact ⟨_, _, rfl, isDigit_ne_lbracket hd1⟩
    · exact ⟨_, _, rfl, isDigit_ne_lbracket hd2⟩
    · exact ⟨_, _, rfl, by decide⟩
    · exact ⟨_, _, rfl, isDigit_ne_lbracket hd4⟩
    · exact ⟨_, _, rfl, isDigit_ne_lbracket hd5⟩
    · exact ⟨_, _, rfl, by decide⟩
  · obtain ⟨d1, d3, d4, rest, heq, hd1, hd3, hd4⟩ := ytShape6_spec h6
    obtain rfl : L = 6 := by injection h with h'; omega
    subst heq
    intro j hj1 hj2
    interval_cases j
    · exact ⟨_, _, rfl, isDigit_ne_lbracket hd1⟩
    · exact ⟨_, _, rfl, by decide⟩
    · exact ⟨_, _, rfl, isDigit_ne_lbracket hd3⟩
    · exact ⟨_, _, rfl, isDigit_ne_lbracket hd4⟩
    · exact ⟨_, _, rfl, by decide⟩

/-- No new match can be anchored strictly inside a match, even after
replacing the suffix beyond the match. -/
theorem ytLen_interior_append_none {cs : List Char} {L : Nat} (h : ytLen cs = some L)
    {j : Nat} (h1 : 1 ≤ j) (h2 : j < L) (z : List Char) :
    ytLen (cs.drop j ++ z) = none := by
  obtain ⟨c, t, heq, hc⟩ := ytLen_interior_char h j h1 h2
  rw [heq]
  exact ytLen_none_of_head _ hc

theorem ytLen_interior_none {cs : List Char} {L : Nat} (h : ytLen cs = some L)
    {j : Nat} (h1 : 1 ≤ j) (h2 : j < L) : ytLen (cs.drop j) = none := by
  have := ytLen_interior_append_none h h1 h2 []
  simpa using this

/-- If `x ++ u = p ++ r` and `p` is no longer than `x`, then `p` is a
prefix of `x`. -/
theorem append_prefix_split {α : Type} {x u p r : List α} (h : x ++ u = p ++ r)
    (hl : p.length ≤ x.length) : x = p ++ r.take (x.length - p.length) := by
  have h1 := congrArg (List.take x.length) h
  rw [List.take_left] at h1
  rw [List.take_append_eq_append_take] at h1
  rw [List.take_of_length_le hl] at h1
  exact h1

/-- A `[d:dd]` pattern anchored at the head matches with length 6, no
matter what follows. -/
theorem ytLen_at6 {d1 d3 d4 : Char} (t : List Char) (h1 : isDigit d1 = true)
    (h3 : isDigit d3 = true) (h4 : isDigit d4 = true) :
    ytLen ('[' :: d1 :: ':' :: d3 :: d4 :: ']' :: t) = some 6 := by
  have hs10 : ytShape10 ('[' :: d1 :: ':' :: d3 :: d4 :: ']' :: t) = false := by
    rcases t with _ | ⟨a, _ | ⟨b, _ | ⟨c, _ | ⟨d, t⟩⟩⟩⟩
    · rfl
    · rfl
    · rfl
    · rfl
    · simp [ytShape10, isDigit_colon]
  have hs9 : ytShape9 ('[' :: d1 :: ':' :: d3 :: d4 :: ']' :: t) = false := by
    rcases t with _ | ⟨a, _ | ⟨b, _ | ⟨c, t⟩⟩⟩
    · rfl
    · rfl
    · rfl
    · simp [ytShape9]
  have hs7 : ytShape7 ('[' :: d1 :: ':' :: d3 :: d4 :: ']' :: t) = false := by
    rcases t with _ | ⟨a, t⟩
    · rfl
    · simp [ytShape7, isDigit_colon]
  have hs6 : ytShape6 ('[' :: d1 :: ':' :: d3 :: d4 :: ']' :: t) = true := by
    simp [ytShape6, h1, h3, h4]
  simp [ytLen, hs10, hs9, hs7, hs6]

/-- A `[dd:dd]` pattern anchored at the head matches with length 7. -/
theorem ytLen_at7 {d1 d2 d4 d5 : Char} (t : List Char) (h1 : isDigit d1 = true)
    (h2 : isDigit d2 = true) (h4 : isDigit d4 = true) (h5 : isDigit d5 = true) :
    ytLen ('[' :: d1 :: d2 :: ':' :: d4 :: d5 :: ']' :: t) = some 7 := by
  have hs10 : ytShape10 ('[' :: d1 :: d2 :: ':' :: d4 :: d5 :: ']' :: t) = false := by
    rcases t with _ | ⟨a, _ | ⟨b, _ | ⟨c, t⟩⟩⟩
    · rfl
    · rfl
    · rfl
    · simp [ytShape10]
  have hs9 : ytShape9 ('[' :: d1 :: d2 :: ':' :: d4 :: d5 :: ']' :: t) = false := by
    by_contra hh
    obtain ⟨e1, e3, e4, e6, e7, rest', heq2, _⟩ := ytShape9_spec (by simpa using hh)
    simp only [List.cons.injEq] at heq2
    exact absurd h2 (by rw [heq2.2.2.1]; decide)
  have hs7 : ytShape7 ('[' :: d1 :: d2 :: ':' :: d4 :: d5 :: ']' :: t) = true := by
    simp [ytShape7, h1, h2, h4, h5]
  simp [ytLen, hs10, hs9, hs7]

/-- A `[d:dd:dd]` pattern anchored at the head matches with length 9. -/
theorem ytLen_at9 {d1 d3 d4 d6 d7 : Char} (t : List Char) (h1 : isDigit d1 = true)
    (h3 : isDigit d3 = true) (h4 : isDigit d4 = true) (h6 : isDigit d6 = true)
    (h7 : isDigit d7 = true) :
    ytLen ('[' :: d1 :: ':' :: d3 :: d4 :: ':' :: d6 :: d7 :: ']' :: t) = some 9 := by
  have hs10 : ytShape10 ('[' :: d1 :: ':' :: d3 :: d4 :: ':' :: d6 :: d7 :: ']' :: t)
      = false := by
    rcases t with _ | ⟨a, t⟩
    · rfl
    · simp [ytShape10, isDigit_colon]
  have hs9 : ytShape9 ('[' :: d1 :: ':' :: d3 :: d4 :: ':' :: d6 :: d7 :: ']' :: t)
      = true := by
    simp [ytShape9, h1, h3, h4, h6, h7]
  simp [ytLen, hs10, hs9]

/-- A `[dd:dd:dd]` pattern anchored at the head matches with length 10. -/
theorem ytLen_at10 {d1 d2 d4 d5 d7 d8 : Char} (t : List Char) (h1 : isDigit d1 = true)
    (h2 : isDigit d2 = true) (h4 : isDigit d4 = true) (h5 : isDigit d5 = true)
    (h7 : isDigit d7 = true) (h8 : isDigit d8 = true) :
    ytLen ('[' :: d1 :: d2 :: ':' :: d4 :: d5 :: ':' :: d7 :: d8 :: ']' :: t)
      = some 10 := by
  have hs10 : ytShape10 ('[' :: d1 :: d2 :: ':' :: d4 :: d5 :: ':' :: d7 :: d8 :: ']' :: t)
      = true := by
    simp [ytShape10, h1, h2, h4, h5, h7, h8]
  simp [ytLen, hs10]

/-- The match anchored at the head is determined by the first `L`
characters: whatever follows them may be replaced freely. -/
theorem ytLen_append_transfer {x u : List Char} {L : Nat}
    (h : ytLen (x ++ u) = some L) (hL : L ≤ x.length) (v : List Char) :
    ytLen (x ++ v) = some L := by
  unfold ytLen at h
  split_ifs at h with h10 h9 h7 h6
  · obtain ⟨d1, d2, d4, d5, d7, d8, rest, heq, hd1, hd2, hd4, hd5, hd7, hd8⟩ :=
      ytShape10_spec h10
    obtain rfl : L = 10 := by injection h with h'; omega
    have heq' : x ++ u =
        ('[' :: d1 :: d2 :: ':' :: d4 :: d5 :: ':' :: d7 :: d8 :: ']' :: ([] : List Char))
          ++ rest := by simpa using heq
    have hx := append_prefix_split heq' (by simpa using hL)
    rw [hx, List.append_assoc]
    simp only [List.cons_append, List.nil_append]
    exact ytLen_at10 _ hd1 hd2 hd4 hd5 hd7 hd8
  · obtain ⟨d1, d3, d4, d6, d7, rest, heq, hd1, hd3, hd4, hd6, hd7⟩ := ytShape9_spec h9
    obtain rfl : L = 9 := by injection h with h'; omega
    have heq' : x ++ u =
        ('[' :: d1 :: ':' :: d3 :: d4 :: ':' :: d6 :: d7 :: ']' :: ([] : List Char))
          ++ rest := by simpa using heq
    have hx := append_prefix_split heq' (by simpa using hL)
    rw [hx, List.append_assoc]
    simp only [List.cons_append, List.nil_append]
    exact ytLen_at9 _ hd1 hd3 hd4 hd6 hd7
  · obtain ⟨d1, d2, d4, d5, rest, heq, hd1, hd2, hd4, hd5⟩ := ytShape7_spec h7
    obtain rfl : L = 7 := by injection h with h'; omega
    have heq' : x ++ u =
        ('[' :: d1 :: d2 :: ':' :: d4 :: d5 :: ']' :: ([] : List Char)) ++ rest := by
      simpa using heq
    have hx := append_prefix_split heq' (by simpa using hL)
    rw [hx, List.append_assoc]
    simp only [List.cons_append, List.nil_append]
    exact ytLen_at7 _ hd1 hd2 hd4 hd5
  · obtain ⟨d1, d3, d4, rest, heq, hd1, hd3, hd4⟩ := ytShape6_spec h6
    obtain rfl : L = 6 := by injection h with h'; omega
    have heq' : x ++ u =
        ('[' :: d1 :: ':' :: d3 :: d4 :: ']' :: ([] : List Char)) ++ rest := by
      simpa using heq
    have hx := append_prefix_split heq' (by simpa using hL)
    rw [hx, List.append_assoc]
    simp only [List.cons_append, List.nil_append]
    exact ytLen_at6 _ hd1 hd3 hd4

/-- Number of positions of `cs` at which a timestamp match is
anchored.  Because matches contain `'['` only at their first
character, `re.findall`'s non-overlapping scan finds exactly these
positions (`scanCount_eq_ytCountPos` below). -/
def ytCountPos (cs : List Char) : Nat :=
  (List.range cs.length).countP (fun i => (ytLen (cs.drop i)).isSome)

theorem ytCountPos_cons (c : Char) (rest : List Char) :
    ytCountPos (c :: rest) =
      (if (ytLen (c :: rest)).isSome then 1 else 0) + ytCountPos rest := by
  unfold ytCountPos
  rw [List.length_cons, List.range_succ_eq_map, List.countP_cons, List.countP_map]
  have hfun : ((fun i => ((ytLen ((c :: rest).drop i)).isSome : Bool)) ∘ Nat.succ)
      = fun i => (ytLen (rest.drop i)).isSome := by
    funext i
    rfl
  rw [hfun]
  exact Nat.add_comm _ _

/-- Positions strictly inside the match anchored at the head carry no
match, so the anchored-position count steps over a match as a block. -/
theorem ytCountPos_drop_interior {cs : List Char} {L : Nat} (h : ytLen cs = some L) :
    ∀ k j, j + k = L → 1 ≤ j → ytCountPos (cs.drop j) = ytCountPos (cs.drop L) := by
  intro k
  induction k with
  | zero =>
    intro j hj _
    obtain rfl : j = L := by omega
    rfl
  | succ k ih =>
    intro j hj hj1
    have hjL : j < L := by omega
    have hlen : L ≤ cs.length := (ytLen_some_spec h).2.1
    have hjlen : j < cs.length := by omega
    have hnone : ytLen (cs.drop j) = none := ytLen_interior_none h hj1 hjL
    have hdropeq : cs.drop j = cs[j] :: cs.drop (j + 1) := List.drop_eq_getElem_cons hjlen
    rw [hdropeq] at hnone
    rw [hdropeq, ytCountPos_cons, hnone]
    simp only [Option.isSome_none, Bool.false_eq_true, if_false, Nat.zero_add]
    exact ih (j + 1) (by omega) (by omega)

theorem ytCountPos_match {cs : List Char} {L : Nat} (h : ytLen cs = some L) :
    ytCountPos cs = 1 + ytCountPos (cs.drop L) := by
  have hL6 : 6 ≤ L := (ytLen_some_spec h).2.2
  have hlen : L ≤ cs.length := (ytLen_some_spec h).2.1
  cases cs with
  | nil => simp at hlen; omega
  | cons c rest =>
    rw [ytCountPos_cons, h]
    simp only [Option.isSome_some, if_true]
    congr 1
    have hrest : rest = (c :: rest).drop 1 := rfl
    rw [hrest]
    exact ytCountPos_drop_interior h (L - 1) 1 (by omega) (by omega)

theorem scanCountAux_eq_ytCountPos :
    ∀ fuel cs, cs.length ≤ fuel → scanCountAux ytLen fuel cs = ytCountPos cs := by
  intro fuel
  induction fuel with
  | zero =>
    intro cs hcs
    have : cs = [] := List.eq_nil_of_length_eq_zero (by omega)
    subst this
    rfl
  | succ fuel ih =>
    intro cs hcs
    cases cs with
    | nil => rfl
    | cons c rest =>
      cases hyt : ytLen (c :: rest) with
      | none =>
        simp only [scanCountAux, hyt]
        rw [ih rest (by simp at hcs; omega)]
        rw [ytCountPos_cons, hyt]
        simp
      | some L =>
        simp only [scanCountAux, hyt]
        have hspec := ytLen_some_spec hyt
        have hmax : max L 1 = L := by omega
        rw [hmax]
        have hdlen : ((c :: rest).drop L).length ≤ fuel := by
          rw [List.length_drop]
          simp only [List.length_cons] at hcs ⊢
          omega
        rw [ih _ hdlen, ytCountPos_match hyt]

theorem scanCount_eq_ytCountPos (cs : List Char) :
    scanCount ytLen cs = ytCountPos cs :=
  scanCountAux_eq_ytCountPos cs.length cs le_rfl

theorem countP_or_le {α : Type} (p q : α → Bool) (l : List α) :
    l.countP (fun x => p x || q x) ≤ l.countP p + l.countP q := by
  induction l with
  | nil => simp
  | cons a l ih =>
    rw [List.countP_cons, List.countP_cons, List.countP_cons]
    by_cases hp : p a = true <;> by_cases hq : q a = true <;>
      simp [hp, hq] <;> omega

theorem countP_le_one_of_unique {α : Type} [DecidableEq α] {l : List α}
    (hnd : l.Nodup) (p : α → Bool)
    (hu : ∀ i ∈ l, ∀ j ∈ l, p i = true → p j = true → i = j) :
    l.countP p ≤ 1 := by
  induction l with
  | nil => simp
  | cons a l ih =>
    rw [List.countP_cons]
    rcases List.nodup_cons.mp hnd with ⟨ha, hnd'⟩
    by_cases hpa : p a = true
    · have hz : l.countP p = 0 := by
        rw [List.countP_eq_zero]
        intro b hb hpb
        exact ha ((hu b (by simp [hb]) a (by simp) hpb hpa) ▸ hb)
      simp [hz, hpa]
    · have hle : l.countP p ≤ 1 :=
        ih hnd' (fun i hi j hj => hu i (by simp [hi]) j (by simp [hj]))
      simp [hpa]
      omega

/-- Anchored-position count of a concatenation: positions inside the
first part, plus the count of the second part alone. -/
theorem ytCountPos_decomp (a z : List Char) :
    ytCountPos (a ++ z) =
      (List.range a.length).countP (fun i => (ytLen (a.drop i ++ z)).isSome) +
      ytCountPos z := by
  unfold ytCountPos
  rw [List.length_append, List.range_add, List.countP_append, List.countP_map]
  congr 1
  · apply List.countP_congr
    intro i hi
    have hina : i < a.length := List.mem_range.mp hi
    rw [List.drop_append_eq_append_drop,
      Nat.sub_eq_zero_of_le (le_of_lt hina), List.drop_zero]
  · apply List.countP_congr
    intro j hj
    simp only [Function.comp]
    rw [List.drop_append_eq_append_drop,
      List.drop_eq_nil_of_le (by omega : a.length ≤ a.length + j),
      Nat.add_sub_cancel_left, List.nil_append]

/-- A whole well-formed marker contributes exactly one anchored
position: one at its start and none strictly inside it. -/
theorem ytMid_count_one (m b : List Char) (hm : ytLen m = some m.length) :
    (List.range m.length).countP (fun j => (ytLen (m.drop j ++ b)).isSome) = 1 := by
  have h6 : 6 ≤ m.length := by
    have := (ytLen_some_spec hm).2.2
    omega
  obtain ⟨k, hk⟩ : ∃ k, m.length = k + 1 := ⟨m.length - 1, by omega⟩
  rw [hk, List.range_succ_eq_map, List.countP_cons, List.countP_map]
  have hz : (List.range k).countP
      ((fun j => ((ytLen (m.drop j ++ b)).isSome : Bool)) ∘ Nat.succ) = 0 := by
    rw [List.countP_eq_zero]
    intro j hj
    have hjk : j < k := List.mem_range.mp hj
    simp only [Function.comp]
    have hnone : ytLen (m.drop (j + 1) ++ b) = none :=
      ytLen_interior_append_none hm (by omega) (by omega) b
    simp [hnone]
  have h0 : ytLen (m ++ b) = some m.length :=
    ytLen_append_transfer (u := []) (by rw [List.append_nil]; exact hm) le_rfl b
  rw [hz]
  simp [h0]

/-- In `g = a.drop i ++ b`, the match anchored at `i` (if any) either
fits inside `a` (`ytInner`) or crosses into `b` (`ytCross`). -/
def ytInner (a b : List Char) (i : Nat) : Bool :=
  match ytLen (a.drop i ++ b) with
  | some L => decide (L ≤ a.length - i)
  | none => false

def ytCross (a b : List Char) (i : Nat) : Bool :=
  match ytLen (a.drop i ++ b) with
  | some L => decide (a.length - i < L)
  | none => false

theorem ytInner_or_cross (a b : List Char) (i : Nat) :
    ((ytLen (a.drop i ++ b)).isSome : Bool) = (ytInner a b i || ytCross a b i) := by
  unfold ytInner ytCross
  cases h : ytLen (a.drop i ++ b) with
  | none => simp
  | some L =>
    simp only [Option.isSome_some, Bool.true_eq, Bool.or_eq_true, decide_eq_true_eq]
    omega

/-- At most one anchored match can cross the insertion point: a second
crossing start would lie strictly inside the first crossing match. -/
theorem ytCross_unique {a b : List Char} {i i' : Nat}
    (hii' : i < i') (hi' : i' < a.length)
    (hc : ytCross a b i = true) : ytCross a b i' = false := by
  unfold ytCross at hc ⊢
  cases hL : ytLen (a.drop i ++ b) with
  | none => rw [hL] at hc; simp at hc
  | some L =>
    rw [hL] at hc
    simp only [decide_eq_true_eq] at hc
    have hj1 : 1 ≤ i' - i := by omega
    have hjL : i' - i < L := by
      have : a.length - i ≥ i' - i + 1 := by omega
      omega
    have hnone : ytLen ((a.drop i ++ b).drop (i' - i)) = none :=
      ytLen_interior_none hL hj1 hjL
    have hdropeq : (a.drop i ++ b).drop (i' - i) = a.drop i' ++ b := by
      rw [List.drop_append_eq_append_drop, List.drop_drop]
      have h1 : i + (i' - i) = i' := by omega
      have h2 : i' - i - (a.drop i).length = 0 := by
        rw [List.length_drop]
        omega
      rw [h1, h2, List.drop_zero]
    rw [hdropeq] at hnone
    rw [hnone]

/-- Inserting one whole well-formed marker `m` between `a` and `b`
never removes anchored matches, adds at most one (the marker itself
may replace one match that crossed the insertion point), and leaves at
least one (the marker's own). -/
theorem ytCountPos_insert (a m b : List Char) (hm : ytLen m = some m.length) :
    ytCountPos (a ++ b) ≤ ytCountPos (a ++ (m ++ b)) ∧
    ytCountPos (a ++ (m ++ b)) ≤ ytCountPos (a ++ b) + 1 ∧
    0 < ytCountPos (a ++ (m ++ b)) := by
  have hold := ytCountPos_decomp a b
  have hnew := ytCountPos_decomp a (m ++ b)
  have hmid := ytCountPos_decomp m b
  rw [hmid, ytMid_count_one m b hm] at hnew
  set P := (List.range a.length).countP
    (fun i => (ytLen (a.drop i ++ (m ++ b))).isSome) with hP
  set Q := (List.range a.length).countP
    (fun i => (ytLen (a.drop i ++ b)).isSome) with hQ
  have hPQ : P ≤ Q := by
    apply List.countP_mono_left
    intro i hi hsome
    obtain ⟨L, hL⟩ := Option.isSome_iff_exists.mp hsome
    have hLle : L ≤ (a.drop i).length := by
      by_contra hgt
      push_neg at hgt
      have hina : i < a.length := List.mem_range.mp hi
      have hx1 : 1 ≤ (a.drop i).length := by rw [List.length_drop]; omega
      have hnone : ytLen ((a.drop i ++ (m ++ b)).drop (a.drop i).length) = none :=
        ytLen_interior_none hL hx1 hgt
      rw [List.drop_left] at hnone
      have hsome' : ytLen (m ++ b) = some m.length :=
        ytLen_append_transfer (u := []) (by rw [List.append_nil]; exact hm) le_rfl b
      rw [hsome'] at hnone
      exact Option.noConfusion hnone
    have htr := ytLen_append_transfer hL hLle b
    simp [htr]
  have hQP : Q ≤ P + 1 := by
    have hsplit : Q = (List.range a.length).countP
        (fun i => ytInner a b i || ytCross a b i) := by
      apply List.countP_congr
      intro i hi
      rw [ytInner_or_cross a b i]
    rw [hsplit]
    have hub := countP_or_le (ytInner a b) (ytCross a b) (List.range a.length)
    have hinner : (List.range a.length).countP (ytInner a b) ≤ P := by
      apply List.countP_mono_left
      intro i hi hin
      unfold ytInner at hin
      cases hL : ytLen (a.drop i ++ b) with
      | none => rw [hL] at hin; simp at hin
      | some L =>
        rw [hL] at hin
        simp only [decide_eq_true_eq] at hin
        have hLle : L ≤ (a.drop i).length := by rw [List.length_drop]; exact hin
        have htr := ytLen_append_transfer hL hLle (m ++ b)
        simp [htr]
    have hcross : (List.range a.length).countP (ytCross a b) ≤ 1 := by
      apply countP_le_one_of_unique (List.nodup_range a.length)
      intro i hi j hj hci hcj
      by_contra hne
      rcases Nat.lt_or_ge i j with hij | hij
      · have hfalse := ytCross_unique hij (List.mem_range.mp hj) hci
        rw [hfalse] at hcj
        exact Bool.noConfusion hcj
      · have hji : j < i := by omega
        have hfalse := ytCross_unique hji (List.mem_range.mp hi) hcj
        rw [hfalse] at hci
        exact Bool.noConfusion hci
    omega
  refine ⟨by omega, by omega, by omega⟩

theorem pyFind_cases (c : Char) (cs : List Char) :
    pyFind c cs = -1 ∨ (0 ≤ pyFind c cs ∧ pyFind c cs < (cs.length : Int)) := by
  induction cs with
  | nil => left; rfl
  | cons x t ih =>
    simp only [pyFind]
    by_cases hx : x = c
    · refine Or.inr ⟨by rw [if_pos hx], ?_⟩
      rw [if_pos hx]
      simp only [List.length_cons]
      push_cast
      omega
    · rw [if_neg hx]
      rcases ih with hr | ⟨h0, hlt⟩
      · left
        rw [if_pos hr]
      · right
        rw [if_neg (by omega)]
        simp only [List.length_cons]
        push_cast
        omega

theorem pyFind_eq_neg_one_iff {c : Char} {cs : List Char} :
    pyFind c cs = -1 ↔ c ∉ cs := by
  induction cs with
  | nil => simp [pyFind]
  | cons x t ih =>
    simp only [pyFind, List.mem_cons]
    by_cases hx : x = c
    · subst hx
      rw [if_pos rfl]
      simp
    · rw [if_neg hx]
      by_cases hr : pyFind c t = -1
      · rw [if_pos hr]
        refine iff_of_true rfl ?_
        push_neg
        exact ⟨fun hh => hx hh.symm, ih.mp hr⟩
      · have h0 : 0 ≤ pyFind c t := by
          rcases pyFind_cases c t with h' | h'
          · exact absurd h' hr
          · exact h'.1
        have hmem : c ∈ t := by
          by_contra hc
          exact hr (ih.mpr hc)
        rw [if_neg hr]
        exact iff_of_false (by omega) (by simp [hmem])

theorem pyFind_append_left {c : Char} {xs : List Char} (ys : List Char)
    (h : pyFind c xs ≠ -1) : pyFind c (xs ++ ys) = pyFind c xs := by
  induction xs with
  | nil => simp [pyFind] at h
  | cons x t ih =>
    simp only [List.cons_append, pyFind, List.append_eq] at h ⊢
    by_cases hx : x = c
    · rw [if_pos hx, if_pos hx]
    · rw [if_neg hx] at h ⊢
      by_cases hr : pyFind c t = -1
      · rw [if_pos hr] at h
        exact absurd rfl h
      · rw [ih hr, if_neg hx]

theorem pyFind_append_right {c : Char} {xs : List Char} (ys : List Char)
    (h : pyFind c xs = -1) :
    pyFind c (xs ++ ys) =
      if pyFind c ys = -1 then -1 else (xs.length : Int) + pyFind c ys := by
  induction xs with
  | nil =>
    simp only [List.nil_append, List.length_nil]
    by_cases hy : pyFind c ys = -1
    · rw [if_pos hy, hy]
    · rw [if_neg hy]
      simp
  | cons x t ih =>
    simp only [List.cons_append, pyFind, List.append_eq, List.length_cons] at h ⊢
    by_cases hx : x = c
    · rw [if_pos hx] at h
      exact absurd h (by decide)
    · rw [if_neg hx] at h ⊢
      have hr : pyFind c t = -1 := by
        by_contra hr
        rw [if_neg hr] at h
        have h0 : 0 ≤ pyFind c t := by
          rcases pyFind_cases c t with h' | h'
          · exact absurd h' hr
          · exact h'.1
        omega
      rw [ih hr]
      by_cases hy : pyFind c ys = -1
      · simp [hy]
      · have h0y : 0 ≤ pyFind c ys := by
          rcases pyFind_cases c ys with h' | h'
          · exact absurd h' hy
          · exact h'.1
        rw [if_neg hy, if_neg hy,
          if_neg (by omega : ¬((t.length : Int) + pyFind c ys = -1))]
        push_cast
        ring

theorem pyRfind_cases (c : Char) (cs : List Char) :
    pyRfind c cs = -1 ∨ (0 ≤ pyRfind c cs ∧ pyRfind c cs < (cs.length : Int)) := by
  induction cs with
  | nil => left; rfl
  | cons x t ih =>
    simp only [pyRfind]
    by_cases hr : pyRfind c t = -1
    · rw [if_pos hr]
      by_cases hx : x = c
      · refine Or.inr ⟨by rw [if_pos hx], ?_⟩
        rw [if_pos hx]
        simp only [List.length_cons]
        push_cast
        omega
      · left
        rw [if_neg hx]
    · rcases ih with h | ⟨h0, hlt⟩
      · exact absurd h hr
      · right
        rw [if_neg hr]
        refine ⟨by omega, ?_⟩
        simp only [List.length_cons]
        push_cast
        omega

theorem pyRfind_eq_neg_one_iff {c : Char} {cs : List Char} :
    pyRfind c cs = -1 ↔ c ∉ cs := by
  induction cs with
  | nil => simp [pyRfind]
  | cons x t ih =>
    simp only [pyRfind, List.mem_cons]
    by_cases hr : pyRfind c t = -1
    · rw [if_pos hr]
      by_cases hx : x = c
      · rw [if_pos hx]
        exact iff_of_false (by decide) (by simp [hx])
      · rw [if_neg hx]
        refine iff_of_true rfl ?_
        push_neg
        exact ⟨fun hh => hx hh.symm, ih.mp hr⟩
    · have h0 : 0 ≤ pyRfind c t := by
        rcases pyRfind_cases c t with h' | h'
        · exact absurd h' hr
        · exact h'.1
      have hmem : c ∈ t := by
        by_contra hc
        exact hr (ih.mpr hc)
      rw [if_neg hr]
      exact iff_of_false (by omega) (by simp [hmem])

theorem pyRfind_append_right {c : Char} {ys : List Char} (xs : List Char)
    (h : pyRfind c ys ≠ -1) :
    pyRfind c (xs ++ ys) = (xs.length : Int) + pyRfind c ys := by
  induction xs with
  | nil => simp
  | cons x t ih =>
    simp only [List.cons_append, pyRfind, List.append_eq, List.length_cons]
    rw [ih]
    have h0 : 0 ≤ pyRfind c ys := by
      rcases pyRfind_cases c ys with h' | h'
      · exact absurd h' h
      · exact h'.1
    rw [if_neg (by omega : ¬((t.length : Int) + pyRfind c ys = -1))]
    push_cast
    ring

theorem pyRfind_append_left {c : Char} {ys : List Char} (xs : List Char)
    (h : pyRfind c ys = -1) :
    pyRfind c (xs ++ ys) = pyRfind c xs := by
  induction xs with
  | nil => simp [pyRfind, h]
  | cons x t ih =>
    simp only [List.cons_append, pyRfind, List.append_eq]
    rw [ih]

theorem ytLen_head {cs : List Char} {L : Nat} (h : ytLen cs = some L) :
    ∃ t, cs = '[' :: t := by
  unfold ytLen at h
  split_ifs at h with h10 h9 h7 h6
  · obtain ⟨_, _, _, _, _, _, rest, heq, _⟩ := ytShape10_spec h10
    exact ⟨_, heq⟩
  · obtain ⟨_, _, _, _, _, rest, heq, _⟩ := ytShape9_spec h9
    exact ⟨_, heq⟩
  · obtain ⟨_, _, _, _, rest, heq, _⟩ := ytShape7_spec h7
    exact ⟨_, heq⟩
  · obtain ⟨_, _, _, rest, heq, _⟩ := ytShape6_spec h6
    exact ⟨_, heq⟩

theorem ytLen_mem {cs : List Char} {L : Nat} (h : ytLen cs = some L) :
    '[' ∈ cs ∧ ']' ∈ cs := by
  unfold ytLen at h
  split_ifs at h with h10 h9 h7 h6
  · obtain ⟨_, _, _, _, _, _, rest, heq, _⟩ := ytShape10_spec h10
    subst heq
    simp
  · obtain ⟨_, _, _, _, _, rest, heq, _⟩ := ytShape9_spec h9
    subst heq
    simp
  · obtain ⟨_, _, _, _, rest, heq, _⟩ := ytShape7_spec h7
    subst heq
    simp
  · obtain ⟨_, _, _, rest, heq, _⟩ := ytShape6_spec h6
    subst heq
    simp

/-- A whole marker ends in `']'` (its last character), with nothing
after it. -/
theorem ytFull_ends_rbracket {m : List Char} (hm : ytLen m = some m.length) :
    ∃ init, m = init ++ [']'] ∧ init.length + 1 = m.length := by
  unfold ytLen at hm
  split_ifs at hm with h10 h9 h7 h6
  · obtain ⟨d1, d2, d4, d5, d7, d8, rest, heq, _⟩ := ytShape10_spec h10
    obtain hL : m.length = 10 := by injection hm with h'; omega
    have hrl := congrArg List.length heq
    simp only [List.length_cons] at hrl
    have hrest : rest = [] := List.eq_nil_of_length_eq_zero (by omega)
    subst hrest
    refine ⟨['[', d1, d2, ':', d4, d5, ':', d7, d8], ?_, by simp [hL]⟩
    rw [heq]
    rfl
  · obtain ⟨d1, d3, d4, d6, d7, rest, heq, _⟩ := ytShape9_spec h9
    obtain hL : m.length = 9 := by injection hm with h'; omega
    have hrl := congrArg List.length heq
    simp only [List.length_cons] at hrl
    have hrest : rest = [] := List.eq_nil_of_length_eq_zero (by omega)
    subst hrest
    refine ⟨['[', d1, ':', d3, d4, ':', d6, d7], ?_, by simp [hL]⟩
    rw [heq]
    rfl
  · obtain ⟨d1, d2, d4, d5, rest, heq, _⟩ := ytShape7_spec h7
    obtain hL : m.length = 7 := by injection hm with h'; omega
    have hrl := congrArg List.length heq
    simp only [List.length_cons] at hrl
    have hrest : rest = [] := List.eq_nil_of_length_eq_zero (by omega)
    subst hrest
    refine ⟨['[', d1, d2, ':', d4, d5], ?_, by simp [hL]⟩
    rw [heq]
    rfl
  · obtain ⟨d1, d3, d4, rest, heq, _⟩ := ytShape6_spec h6
    obtain hL : m.length = 6 := by injection hm with h'; omega
    have hrl := congrArg List.length heq
    simp only [List.length_cons] at hrl
    have hrest : rest = [] := List.eq_nil_of_length_eq_zero (by omega)
    subst hrest
    refine ⟨['[', d1, ':', d3, d4], ?_, by simp [hL]⟩
    rw [heq]
    rfl

/-- A note with at least one anchored match contains a `'['` and a
`']'`. -/
theorem ytCountPos_pos_mem {g : List Char} (h : 0 < ytCountPos g) :
    '[' ∈ g ∧ ']' ∈ g := by
  unfold ytCountPos at h
  rw [List.countP_pos_iff] at h
  obtain ⟨i, hi, hp⟩ := h
  obtain ⟨L, hL⟩ := Option.isSome_iff_exists.mp hp
  have hmem := ytLen_mem hL
  exact ⟨List.mem_of_mem_drop hmem.1, List.mem_of_mem_drop hmem.2⟩

/-- **C9**: for every note (split as `a ++ b`) with fewer than 5
citation markers, under any source type that uses the timestamp
citation pattern (`youtube`, `video`, or any unknown type falling back
to the default), inserting one well-formed timestamp marker `m` at the
split point never decreases the citation sub-score of
`verify_citations`: the marker count never drops and grows by at most
one, the first `'['` can only move earlier and the last `']'` only
later relative to the 30%/70% thresholds, so the base score cannot
shrink and the distribution penalties can only be lifted. -/
theorem C9_citation_monotone (a m b : String) (source_type : String)
    (hsrc : citationMatcher source_type = ytLen)
    (hm : ytLen m.data = some m.data.length)
    (hcount : scanCount (citationMatcher source_type) (a ++ b).data < 5) :
    (verify_citations (a ++ b) source_type).1 ≤
      (verify_citations (a ++ m ++ b) source_type).1 := by
  rw [citation_score_closed_form, citation_score_closed_form]
  dsimp only
  simp only [hsrc, String.data_append, List.append_assoc, scanCount_eq_ytCountPos,
    String.length_append]
  have hins := ytCountPos_insert a.data m.data b.data hm
  by_cases hc0 : ytCountPos (a.data ++ b.data) = 0
  · simp [hc0]
  · have hc1 : 0 < ytCountPos (a.data ++ b.data) := Nat.pos_of_ne_zero hc0
    have hmems := ytCountPos_pos_mem hc1
    have hmlen : m.data.length = m.length := rfl
    have hfle : pyFind '[' (a.data ++ (m.data ++ b.data)) ≤ pyFind '[' (a.data ++ b.data) := by
      by_cases hbrk : '[' ∈ a.data
      · have hne : pyFind '[' a.data ≠ -1 := fun hc => (pyFind_eq_neg_one_iff.mp hc) hbrk
        rw [pyFind_append_left (m.data ++ b.data) hne, pyFind_append_left b.data hne]
      · have ha1 : pyFind '[' a.data = -1 := pyFind_eq_neg_one_iff.mpr hbrk
        have hmemB : '[' ∈ b.data := by
          rcases List.mem_append.mp hmems.1 with h | h
          · exact absurd h hbrk
          · exact h
        have hbne : pyFind '[' b.data ≠ -1 := fun hc => (pyFind_eq_neg_one_iff.mp hc) hmemB
        have hb0 : 0 ≤ pyFind '[' b.data := by
          rcases pyFind_cases '[' b.data with h' | h'
          · exact absurd h' hbne
          · exact h'.1
        obtain ⟨mt, hmt⟩ := ytLen_head hm
        have hm0 : pyFind '[' m.data = 0 := by rw [hmt]; simp [pyFind]
        have hmb0 : pyFind '[' (m.data ++ b.data) = 0 := by
          rw [pyFind_append_left b.data (by rw [hm0]; decide), hm0]
        rw [pyFind_append_right (m.data ++ b.data) ha1, pyFind_append_right b.data ha1,
          hmb0, if_neg (by decide : ¬((0 : Int) = -1)), if_neg hbne]
        omega
    have hrge : pyRfind ']' (a.data ++ b.data) + (m.data.length : Int) ≤
        pyRfind ']' (a.data ++ (m.data ++ b.data)) := by
      by_cases hrb : ']' ∈ b.data
      · have hbne : pyRfind ']' b.data ≠ -1 := fun hc => (pyRfind_eq_neg_one_iff.mp hc) hrb
        have hb0 : 0 ≤ pyRfind ']' b.data := by
          rcases pyRfind_cases ']' b.data with h' | h'
          · exact absurd h' hbne
          · exact h'.1
        have h1 : pyRfind ']' (m.data ++ b.data) = (m.data.length : Int) + pyRfind ']' b.data :=
          pyRfind_append_right m.data hbne
        rw [pyRfind_append_right a.data hbne,
          pyRfind_append_right a.data (by rw [h1]; omega), h1]
        omega
      · have hbeq : pyRfind ']' b.data = -1 := pyRfind_eq_neg_one_iff.mpr hrb
        have hmemA : ']' ∈ a.data := by
          rcases List.mem_append.mp hmems.2 with h | h
          · exact h
          · exact absurd h hrb
        have hane : pyRfind ']' a.data ≠ -1 := fun hc => (pyRfind_eq_neg_one_iff.mp hc) hmemA
        have haB : 0 ≤ pyRfind ']' a.data ∧ pyRfind ']' a.data < (a.data.length : Int) := by
          rcases pyRfind_cases ']' a.data with h' | h'
          · exact absurd h' hane
          · exact h'
        obtain ⟨init, hinit, hinitlen⟩ := ytFull_ends_rbracket hm
        have hsingle : pyRfind ']' ([']'] : List Char) = 0 := by decide
        have hmr : pyRfind ']' m.data = (init.length : Int) := by
          rw [hinit, pyRfind_append_right init (by rw [hsingle]; decide), hsingle]
          omega
        have hmbr : pyRfind ']' (m.data ++ b.data) = (init.length : Int) := by
          rw [pyRfind_append_left m.data hbeq, hmr]
        rw [pyRfind_append_left a.data hbeq,
          pyRfind_append_right a.data (by rw [hmbr]; omega), hmbr]
        omega
    apply Int.toNat_le_toNat
    gcongr
    · split_ifs <;> omega
    · split_ifs <;> omega
    · split_ifs <;> omega

/-- **C9** witness: a concrete note with one existing marker and one
inserted `[2:34]` marker; the hypotheses evaluate by `rfl`/`decide`. -/
theorem C9_citation_monotone_witness :
    (verify_citations ("note [1:23] x " ++ " tail") "youtube").1 ≤
      (verify_citations ("note [1:23] x " ++ "[2:34]" ++ " tail") "youtube").1 :=
  C9_citation_monotone "note [1:23] x " "[2:34]" " tail" "youtube" rfl (by decide) (by decide)

end Summarizer
